import Mathlib

/-!
Verification of `src/sorting.py`: comparator-driven sorting with a three-way
comparator `cmp : α → α → Int` returning -1/0/1.  The Python functions are
shallowly embedded as Lean functions on `List α`; Python's list values become
Lean lists, and the in-place quicksort is modelled by explicit state passing
(the function returns the final contents of the mutated list).  A separate
heap model (further below) makes object identity and mutation explicit for
the frame/aliasing claims.
-/

namespace Sorting

/-- Embeds `cmp_standard` from `sorting.py`: `-1` if `a < b`, `1` if `b < a`,
else `0`.  The Python function works on any type with `<`; we embed it for an
arbitrary linear order. -/
def cmp_standard {α : Type} [LinearOrder α] (a b : α) : Int :=
  if a < b then -1 else if b < a then 1 else 0

/-- Embeds `cmp_reverse` from `sorting.py`: `1` if `a < b`, `-1` if `b < a`,
else `0`. -/
def cmp_reverse {α : Type} [LinearOrder α] (a b : α) : Int :=
  if a < b then 1 else if b < a then -1 else 0

/-- Embeds `cmp_last_digit` from `sorting.py`: compares `a % 10` with `b % 10`.
Python's `%` for a positive modulus agrees with Lean's `Int` `%` (both are
non-negative). -/
def cmp_last_digit (a b : Int) : Int :=
  cmp_standard (a % 10) (b % 10)

/-- The three-way comparator contract assumed by the spec (section 3):
results lie in `{-1, 0, 1}`, `-1`/`1` are each other's mirror image under
swapping the arguments, and the induced relation `cmp a b ≠ 1` ("a does not
follow b") is transitive, so `cmp` encodes a total preorder. -/
structure CmpContract {α : Type} (cmp : α → α → Int) : Prop where
  range : ∀ a b, cmp a b = -1 ∨ cmp a b = 0 ∨ cmp a b = 1
  flip : ∀ a b, cmp a b = -1 ↔ cmp b a = 1
  le_trans : ∀ a b c, cmp a b ≠ 1 → cmp b c ≠ 1 → cmp a c ≠ 1

namespace CmpContract

variable {α : Type} {cmp : α → α → Int}

theorem refl (hc : CmpContract cmp) (a : α) : cmp a a = 0 := by
  have h1 := hc.range a a
  have h2 := hc.flip a a
  omega

theorem symm0 (hc : CmpContract cmp) {a b : α} (h : cmp a b = 0) : cmp b a = 0 := by
  have h1 := hc.range b a
  have h2 := hc.flip a b
  have h3 := hc.flip b a
  omega

/-- If it is not the case that `a` follows `b` nor that `b` follows `a`,
then `a` and `b` are equivalent. -/
theorem eq_zero_of_ne_one (hc : CmpContract cmp) {a b : α} (h1 : cmp a b ≠ 1)
    (h2 : cmp b a ≠ 1) : cmp a b = 0 := by
  have h3 := hc.range a b
  have h4 := hc.flip a b
  omega

/-- Left congruence: equivalent elements compare identically against any
third element. -/
theorem congr_left (hc : CmpContract cmp) {a b : α} (hab : cmp a b = 0) (c : α) :
    cmp a c = cmp b c := by
  have hba := hc.symm0 hab
  have t1 := hc.le_trans a b c
  have t2 := hc.le_trans b a c
  have t3 := hc.le_trans c a b
  have t4 := hc.le_trans c b a
  have f1 := hc.flip a c
  have f2 := hc.flip b c
  have r1 := hc.range a c
  have r2 := hc.range b c
  have r3 := hc.range c a
  have r4 := hc.range c b
  have f3 := hc.flip c a
  have f4 := hc.flip c b
  omega

/-- Right congruence: comparing against equivalent elements gives identical
results. -/
theorem congr_right (hc : CmpContract cmp) {b c : α} (hbc : cmp b c = 0) (a : α) :
    cmp a b = cmp a c := by
  have hcb := hc.symm0 hbc
  have t1 := hc.le_trans a b c
  have t2 := hc.le_trans a c b
  have t3 := hc.le_trans b c a
  have t4 := hc.le_trans c b a
  have f1 := hc.flip a b
  have f2 := hc.flip a c
  have f3 := hc.flip b a
  have f4 := hc.flip c a
  have r1 := hc.range a b
  have r2 := hc.range a c
  have r3 := hc.range b a
  have r4 := hc.range c a
  omega

end CmpContract

/-- `cmp_standard` satisfies the comparator contract. -/
theorem cmp_standard_contract {α : Type} [LinearOrder α] :
    CmpContract (@cmp_standard α _) := by
  refine ⟨?_, ?_, ?_⟩
  · intro a b
    unfold cmp_standard
    split_ifs <;> simp
  · intro a b
    unfold cmp_standard
    rcases lt_trichotomy a b with h | h | h
    · simp [h, lt_asymm h]
    · subst h; simp
    · simp [h, lt_asymm h]
  · intro a b c hab hbc
    have h1 : a ≤ b := by
      by_contra h
      rw [not_le] at h
      exact hab (by simp [cmp_standard, h, lt_asymm h])
    have h2 : b ≤ c := by
      by_contra h
      rw [not_le] at h
      exact hbc (by simp [cmp_standard, h, lt_asymm h])
    have hac : a ≤ c := h1.trans h2
    intro h
    unfold cmp_standard at h
    split_ifs at h with hx hy
    · exact absurd hy (not_lt.mpr hac)
    · exact absurd h (by decide)

/-- Composing a contract-satisfying comparator with a projection again
satisfies the contract (used for the spec's "compare only the first
component" comparator). -/
theorem CmpContract.comap {α β : Type} {cmp : α → α → Int} (hc : CmpContract cmp)
    (f : β → α) : CmpContract (fun x y => cmp (f x) (f y)) where
  range := fun a b => hc.range (f a) (f b)
  flip := fun a b => hc.flip (f a) (f b)
  le_trans := fun a b c => hc.le_trans (f a) (f b) (f c)

/-!
## `_merged`

The Python `_merged` runs a while loop over two cursors.  Each iteration whose
comparison result lies in `{-1, 0, 1}` advances at least one cursor, so the
loop performs at most `len xs + len ys` iterations before one input is
exhausted; if the comparison result lies outside `{-1, 0, 1}`, no branch of
the loop body advances either cursor and the loop repeats the identical state
forever.  We embed the loop as structural recursion on an iteration budget of
`xs.length + ys.length` (always sufficient, see `mergedA_isSome_of_range`) and
return `none` for the diverging out-of-range case.
-/

/-- One-iteration-per-step embedding of the `_merged` while loop.  `fuel`
bounds the number of loop iterations; the cursors are represented by the
unconsumed suffixes of the two lists.  `none` models nontermination: either
an out-of-range comparison (the loop repeats the same state forever) or an
exhausted iteration budget (never happens for `fuel ≥ |xs| + |ys|`). -/
def mergedA {α : Type} (cmp : α → α → Int) (fuel : Nat) (xs ys : List α) :
    Option (List α) :=
  match xs, ys with
  | [], ys => some ys
  | x :: xs, [] => some (x :: xs)
  | x :: xs, y :: ys =>
    match fuel with
    | 0 => none
    | fuel + 1 =>
      let number := cmp x y
      if number = -1 then (mergedA cmp fuel xs (y :: ys)).map (fun l => x :: l)
      else if number = 1 then (mergedA cmp fuel (x :: xs) ys).map (fun l => y :: l)
      else if number = 0 then (mergedA cmp fuel xs ys).map (fun l => x :: y :: l)
      else none

/-- Embeds `_merged(xs, ys, cmp)` from `sorting.py`.  After the loop exits the
function appends the remainders `xs[counter1:]` and `ys[counter2:]`; in the
suffix representation this is exactly the two base cases of `mergedA`. -/
def merged {α : Type} (cmp : α → α → Int) (xs ys : List α) : Option (List α) :=
  mergedA cmp (xs.length + ys.length) xs ys

theorem mergedA_nil {α : Type} (cmp : α → α → Int) (fuel : Nat) (ys : List α) :
    mergedA cmp fuel [] ys = some ys := by cases fuel <;> rfl

theorem mergedA_cons_nil {α : Type} (cmp : α → α → Int) (fuel : Nat) (x : α)
    (xs : List α) : mergedA cmp fuel (x :: xs) [] = some (x :: xs) := by
  cases fuel <;> rfl

theorem mergedA_succ {α : Type} (cmp : α → α → Int) (fuel : Nat) (x y : α)
    (xs ys : List α) :
    mergedA cmp (fuel + 1) (x :: xs) (y :: ys) =
      (if cmp x y = -1 then (mergedA cmp fuel xs (y :: ys)).map (fun l => x :: l)
       else if cmp x y = 1 then (mergedA cmp fuel (x :: xs) ys).map (fun l => y :: l)
       else if cmp x y = 0 then (mergedA cmp fuel xs ys).map (fun l => x :: y :: l)
       else none) := rfl

/-- A sufficient iteration budget makes the exact budget irrelevant. -/
theorem mergedA_congr {α : Type} (cmp : α → α → Int) :
    ∀ (f g : Nat) (xs ys : List α), xs.length + ys.length ≤ f →
      xs.length + ys.length ≤ g → mergedA cmp f xs ys = mergedA cmp g xs ys := by
  intro f
  induction f with
  | zero =>
    intro g xs ys hf _
    match xs, ys with
    | [], ys => rw [mergedA_nil, mergedA_nil]
    | x :: xs, [] => rw [mergedA_cons_nil, mergedA_cons_nil]
    | x :: xs, y :: ys => simp at hf
  | succ f ih =>
    intro g xs ys hf hg
    match xs, ys with
    | [], ys => rw [mergedA_nil, mergedA_nil]
    | x :: xs, [] => rw [mergedA_cons_nil, mergedA_cons_nil]
    | x :: xs, y :: ys =>
      match g with
      | 0 => simp at hg
      | g + 1 =>
        simp only [List.length_cons] at hf hg
        have e1 := ih g xs (y :: ys) (by simp; omega) (by simp; omega)
        have e2 := ih g (x :: xs) ys (by simp; omega) (by simp; omega)
        have e3 := ih g xs ys (by omega) (by omega)
        rw [mergedA_succ, mergedA_succ, e1, e2, e3]

/-- Spare iteration budget does not change the result of the loop. -/
theorem mergedA_fuel_mono {α : Type} (cmp : α → α → Int) (fuel : Nat)
    (xs ys : List α) (h : xs.length + ys.length ≤ fuel) :
    mergedA cmp fuel xs ys = merged cmp xs ys :=
  mergedA_congr cmp fuel (xs.length + ys.length) xs ys h le_rfl

/-- The three advancing branches of the merge loop, phrased on `merged`
itself: if the comparator says less, the left element is emitted and the left
cursor advances. -/
theorem merged_cons_lt {α : Type} (cmp : α → α → Int) (x y : α) (xs ys : List α)
    (h : cmp x y = -1) :
    merged cmp (x :: xs) (y :: ys) = (merged cmp xs (y :: ys)).map (fun l => x :: l) := by
  show mergedA cmp ((x :: xs).length + (y :: ys).length) (x :: xs) (y :: ys) = _
  rw [show (x :: xs).length + (y :: ys).length
      = (xs.length + (y :: ys).length) + 1 by simp; omega]
  rw [mergedA_succ, if_pos h]
  exact congrArg _ (mergedA_fuel_mono cmp _ xs (y :: ys) le_rfl)

/-- If the comparator says greater, the right element is emitted and the right
cursor advances. -/
theorem merged_cons_gt {α : Type} (cmp : α → α → Int) (x y : α) (xs ys : List α)
    (h : cmp x y = 1) :
    merged cmp (x :: xs) (y :: ys) = (merged cmp (x :: xs) ys).map (fun l => y :: l) := by
  show mergedA cmp ((x :: xs).length + (y :: ys).length) (x :: xs) (y :: ys) = _
  rw [show (x :: xs).length + (y :: ys).length
      = ((x :: xs).length + ys.length) + 1 by simp; omega]
  rw [mergedA_succ, if_neg (by rw [h]; decide), if_pos h]
  exact congrArg _ (mergedA_fuel_mono cmp _ (x :: xs) ys le_rfl)

/-- If the comparator says equal, the left element is emitted, immediately
followed by the right element, and both cursors advance. -/
theorem merged_cons_eq {α : Type} (cmp : α → α → Int) (x y : α) (xs ys : List α)
    (h : cmp x y = 0) :
    merged cmp (x :: xs) (y :: ys) = (merged cmp xs ys).map (fun l => x :: y :: l) := by
  show mergedA cmp ((x :: xs).length + (y :: ys).length) (x :: xs) (y :: ys) = _
  rw [show (x :: xs).length + (y :: ys).length
      = (xs.length + ys.length + 1) + 1 by simp; omega]
  rw [mergedA_succ, if_neg (by rw [h]; decide), if_neg (by rw [h]; decide), if_pos h]
  exact congrArg _ (mergedA_fuel_mono cmp _ xs ys (by omega))

/-- An out-of-range comparison on the two current elements leaves both
cursors where they are, so the Python loop never terminates: the model
returns `none`. -/
theorem merged_cons_stuck {α : Type} (cmp : α → α → Int) (x y : α) (xs ys : List α)
    (h1 : cmp x y ≠ -1) (h2 : cmp x y ≠ 0) (h3 : cmp x y ≠ 1) :
    merged cmp (x :: xs) (y :: ys) = none := by
  show mergedA cmp ((x :: xs).length + (y :: ys).length) (x :: xs) (y :: ys) = _
  rw [show (x :: xs).length + (y :: ys).length
      = (xs.length + ys.length + 1) + 1 by simp; omega]
  rw [mergedA_succ, if_neg h1, if_neg h3, if_neg h2]

/-- When the left input is exhausted the remainder of the right input is
appended unchanged. -/
theorem merged_nil_left {α : Type} (cmp : α → α → Int) (ys : List α) :
    merged cmp [] ys = some ys := mergedA_nil cmp _ ys

/-- When the right input is exhausted the remainder of the left input is
appended unchanged. -/
theorem merged_nil_right {α : Type} (cmp : α → α → Int) (x : α) (xs : List α) :
    merged cmp (x :: xs) [] = some (x :: xs) := mergedA_cons_nil cmp _ x xs

/-- The sortedness predicate used by the spec's ordering invariant: no
adjacent pair `(x, y)` with `x` before `y` has `cmp x y = 1`. -/
def sortedUnder {α : Type} (cmp : α → α → Int) (l : List α) : Prop :=
  List.Chain' (fun a b => cmp a b ≠ 1) l

instance sortedUnderDecidable {α : Type} (cmp : α → α → Int) :
    (l : List α) → Decidable (sortedUnder cmp l)
  | [] => isTrue List.chain'_nil
  | [x] => isTrue (List.chain'_singleton x)
  | x :: y :: rest =>
    have : Decidable (sortedUnder cmp (y :: rest)) :=
      sortedUnderDecidable cmp (y :: rest)
    decidable_of_iff (cmp x y ≠ 1 ∧ sortedUnder cmp (y :: rest))
      (by unfold sortedUnder; rw [List.chain'_cons])

theorem sortedUnder_iff_pairwise {α : Type} {cmp : α → α → Int}
    (hc : CmpContract cmp) (l : List α) :
    sortedUnder cmp l ↔ List.Pairwise (fun a b => cmp a b ≠ 1) l := by
  have : IsTrans α (fun a b => cmp a b ≠ 1) := ⟨fun a b c => hc.le_trans a b c⟩
  exact List.chain'_iff_pairwise

/-- Whenever `_merged` terminates, its output is a permutation of the two
inputs concatenated (hence no element is dropped or duplicated). -/
theorem merged_perm {α : Type} (cmp : α → α → Int) :
    ∀ (xs ys l : List α), merged cmp xs ys = some l → l.Perm (xs ++ ys) := by
  have H : ∀ (n : Nat) (xs ys : List α), xs.length + ys.length ≤ n →
      ∀ l, merged cmp xs ys = some l → l.Perm (xs ++ ys) := by
    intro n
    induction n with
    | zero =>
      intro xs ys h l hl
      match xs, ys with
      | [], ys =>
        rw [merged_nil_left] at hl
        cases hl
        simp
      | x :: xs, _ => simp at h
    | succ n ih =>
      intro xs ys h l hl
      match xs, ys with
      | [], ys =>
        rw [merged_nil_left] at hl
        cases hl
        simp
      | x :: xs, [] =>
        rw [merged_nil_right] at hl
        cases hl
        simp
      | x :: xs, y :: ys =>
        by_cases h1 : cmp x y = -1
        · rw [merged_cons_lt cmp x y xs ys h1] at hl
          cases hm : merged cmp xs (y :: ys) with
          | none => rw [hm] at hl; simp at hl
          | some l' =>
            rw [hm] at hl
            simp only [Option.map_some'] at hl
            cases hl
            have hp := ih xs (y :: ys) (by simp at h ⊢; omega) l' hm
            exact hp.cons x
        · by_cases h2 : cmp x y = 1
          · rw [merged_cons_gt cmp x y xs ys h2] at hl
            cases hm : merged cmp (x :: xs) ys with
            | none => rw [hm] at hl; simp at hl
            | some l' =>
              rw [hm] at hl
              simp only [Option.map_some'] at hl
              cases hl
              have hp := ih (x :: xs) ys (by simp at h ⊢; omega) l' hm
              exact (hp.cons y).trans List.perm_middle.symm
          · by_cases h3 : cmp x y = 0
            · rw [merged_cons_eq cmp x y xs ys h3] at hl
              cases hm : merged cmp xs ys with
              | none => rw [hm] at hl; simp at hl
              | some l' =>
                rw [hm] at hl
                simp only [Option.map_some'] at hl
                cases hl
                have hp := ih xs ys (by simp at h ⊢; omega) l' hm
                have step : (y :: l').Perm (xs ++ (y :: ys)) :=
                  (hp.cons y).trans List.perm_middle.symm
                exact step.cons x
            · rw [merged_cons_stuck cmp x y xs ys h1 h3 h2] at hl
              cases hl
  intro xs ys l hl
  exact H (xs.length + ys.length) xs ys le_rfl l hl

/-- Whenever `_merged` terminates, the output length is the sum of the input
lengths. -/
theorem merged_length {α : Type} (cmp : α → α → Int) (xs ys l : List α)
    (hl : merged cmp xs ys = some l) : l.length = xs.length + ys.length := by
  have := (merged_perm cmp xs ys l hl).length_eq
  simpa using this

/-- If the comparator always answers in `{-1, 0, 1}`, the `_merged` loop
terminates on every pair of inputs. -/
theorem merged_isSome_of_range {α : Type} {cmp : α → α → Int}
    (hr : ∀ a b, cmp a b = -1 ∨ cmp a b = 0 ∨ cmp a b = 1) :
    ∀ (xs ys : List α), ∃ l, merged cmp xs ys = some l := by
  have H : ∀ (n : Nat) (xs ys : List α), xs.length + ys.length ≤ n →
      ∃ l, merged cmp xs ys = some l := by
    intro n
    induction n with
    | zero =>
      intro xs ys h
      match xs, ys with
      | [], ys => exact ⟨ys, merged_nil_left cmp ys⟩
      | x :: xs, _ => simp at h
    | succ n ih =>
      intro xs ys h
      match xs, ys with
      | [], ys => exact ⟨ys, merged_nil_left cmp ys⟩
      | x :: xs, [] => exact ⟨x :: xs, merged_nil_right cmp x xs⟩
      | x :: xs, y :: ys =>
        rcases hr x y with h1 | h1 | h1
        · obtain ⟨l, hl⟩ := ih xs (y :: ys) (by simp at h ⊢; omega)
          exact ⟨x :: l, by rw [merged_cons_lt cmp x y xs ys h1, hl]; rfl⟩
        · obtain ⟨l, hl⟩ := ih xs ys (by simp at h ⊢; omega)
          exact ⟨x :: y :: l, by rw [merged_cons_eq cmp x y xs ys h1, hl]; rfl⟩
        · obtain ⟨l, hl⟩ := ih (x :: xs) ys (by simp at h ⊢; omega)
          exact ⟨y :: l, by rw [merged_cons_gt cmp x y xs ys h1, hl]; rfl⟩
  intro xs ys
  exact H (xs.length + ys.length) xs ys le_rfl

/-- Merging two sorted inputs yields a sorted output (under the comparator
contract). -/
theorem merged_pairwise {α : Type} {cmp : α → α → Int} (hc : CmpContract cmp) :
    ∀ (xs ys l : List α), List.Pairwise (fun a b => cmp a b ≠ 1) xs →
      List.Pairwise (fun a b => cmp a b ≠ 1) ys →
      merged cmp xs ys = some l → List.Pairwise (fun a b => cmp a b ≠ 1) l := by
  have H : ∀ (n : Nat) (xs ys : List α), xs.length + ys.length ≤ n →
      ∀ l, List.Pairwise (fun a b => cmp a b ≠ 1) xs →
        List.Pairwise (fun a b => cmp a b ≠ 1) ys →
        merged cmp xs ys = some l → List.Pairwise (fun a b => cmp a b ≠ 1) l := by
    intro n
    induction n with
    | zero =>
      intro xs ys h l _ hy hl
      match xs, ys with
      | [], ys => rw [merged_nil_left] at hl; cases hl; exact hy
      | x :: xs, _ => simp at h
    | succ n ih =>
      intro xs ys h l hx hy hl
      match xs, ys with
      | [], ys => rw [merged_nil_left] at hl; cases hl; exact hy
      | x :: xs, [] => rw [merged_nil_right] at hl; cases hl; exact hx
      | x :: xs, y :: ys =>
        rw [List.pairwise_cons] at hx hy
        by_cases h1 : cmp x y = -1
        · rw [merged_cons_lt cmp x y xs ys h1] at hl
          cases hm : merged cmp xs (y :: ys) with
          | none => rw [hm] at hl; simp at hl
          | some l' =>
            rw [hm] at hl
            simp only [Option.map_some'] at hl
            cases hl
            have hperm := merged_perm cmp xs (y :: ys) l' hm
            have hl' := ih xs (y :: ys) (by simp at h ⊢; omega) l' hx.2
              (List.pairwise_cons.mpr hy) hm
            rw [List.pairwise_cons]
            refine ⟨?_, hl'⟩
            intro a ha
            have : a ∈ xs ++ (y :: ys) := hperm.mem_iff.mp ha
            rcases List.mem_append.mp this with h' | h'
            · exact hx.1 a h'
            · rcases List.mem_cons.mp h' with rfl | h''
              · rw [h1]; decide
              · have hxy : cmp x y ≠ 1 := by rw [h1]; decide
                exact hc.le_trans x y a hxy (hy.1 a h'')
        · by_cases h2 : cmp x y = 1
          · rw [merged_cons_gt cmp x y xs ys h2] at hl
            cases hm : merged cmp (x :: xs) ys with
            | none => rw [hm] at hl; simp at hl
            | some l' =>
              rw [hm] at hl
              simp only [Option.map_some'] at hl
              cases hl
              have hperm := merged_perm cmp (x :: xs) ys l' hm
              have hl' := ih (x :: xs) ys (by simp at h ⊢; omega) l'
                (List.pairwise_cons.mpr hx) hy.2 hm
              rw [List.pairwise_cons]
              refine ⟨?_, hl'⟩
              intro a ha
              have hyx : cmp y x ≠ 1 := by
                have := (hc.flip y x).mpr h2
                rw [this]; decide
              have : a ∈ (x :: xs) ++ ys := hperm.mem_iff.mp ha
              rcases List.mem_append.mp this with h' | h'
              · rcases List.mem_cons.mp h' with rfl | h''
                · exact hyx
                · exact hc.le_trans y x a hyx (hx.1 a h'')
              · exact hy.1 a h'
          · by_cases h3 : cmp x y = 0
            · rw [merged_cons_eq cmp x y xs ys h3] at hl
              cases hm : merged cmp xs ys with
              | none => rw [hm] at hl; simp at hl
              | some l' =>
                rw [hm] at hl
                simp only [Option.map_some'] at hl
                cases hl
                have hperm := merged_perm cmp xs ys l' hm
                have hl' := ih xs ys (by simp at h ⊢; omega) l' hx.2 hy.2 hm
                have hxy : cmp x y ≠ 1 := by rw [h3]; decide
                have hyx : cmp y x ≠ 1 := by rw [hc.symm0 h3]; decide
                rw [List.pairwise_cons]
                constructor
                · intro a ha
                  rcases List.mem_cons.mp ha with rfl | ha'
                  · exact hxy
                  · have : a ∈ xs ++ ys := hperm.mem_iff.mp ha'
                    rcases List.mem_append.mp this with h' | h'
                    · exact hx.1 a h'
                    · exact hc.le_trans x y a hxy (hy.1 a h')
                rw [List.pairwise_cons]
                refine ⟨?_, hl'⟩
                intro a ha
                have : a ∈ xs ++ ys := hperm.mem_iff.mp ha
                rcases List.mem_append.mp this with h' | h'
                · exact hc.le_trans y x a hyx (hx.1 a h')
                · exact hy.1 a h'
            · rw [merged_cons_stuck cmp x y xs ys h1 h3 h2] at hl
              cases hl
  intro xs ys l hx hy hl
  exact H (xs.length + ys.length) xs ys le_rfl l hx hy hl

/-!
## `merge_sorted`

`merge_sorted` deep-copies its input (pure value: the identical list), returns
the copy for length ≤ 1, and otherwise splits at `mid = len // 2` into
`xs[:mid]` and `xs[mid:]`, recurses on both halves and merges.  The recursion
is embedded with a recursion-depth budget `fuel`; a budget of `xs.length` is
always sufficient (each recursive call works on a strictly shorter list).
`none` propagates nontermination of the `_merged` loop (or an exhausted
budget, which never occurs at the chosen budget). -/
def merge_sortedA {α : Type} (cmp : α → α → Int) (fuel : Nat) (xs : List α) :
    Option (List α) :=
  match xs with
  | [] => some []
  | [x] => some [x]
  | x :: y :: rest =>
    match fuel with
    | 0 => none
    | fuel + 1 =>
      let xs2 := x :: y :: rest
      let mid := xs2.length / 2
      (merge_sortedA cmp fuel (xs2.take mid)).bind fun lmerge =>
        (merge_sortedA cmp fuel (xs2.drop mid)).bind fun rmerge =>
          merged cmp lmerge rmerge

/-- Embeds `merge_sorted(xs, cmp)` from `sorting.py`. -/
def merge_sorted {α : Type} (cmp : α → α → Int) (xs : List α) : Option (List α) :=
  merge_sortedA cmp xs.length xs

theorem merge_sortedA_nil {α : Type} (cmp : α → α → Int) (fuel : Nat) :
    merge_sortedA cmp fuel ([] : List α) = some [] := by cases fuel <;> rfl

theorem merge_sortedA_single {α : Type} (cmp : α → α → Int) (fuel : Nat) (x : α) :
    merge_sortedA cmp fuel [x] = some [x] := by cases fuel <;> rfl

theorem merge_sortedA_succ {α : Type} (cmp : α → α → Int) (fuel : Nat) (x y : α)
    (rest : List α) :
    merge_sortedA cmp (fuel + 1) (x :: y :: rest) =
      (merge_sortedA cmp fuel ((x :: y :: rest).take ((x :: y :: rest).length / 2))).bind
        (fun lmerge =>
          (merge_sortedA cmp fuel
              ((x :: y :: rest).drop ((x :: y :: rest).length / 2))).bind
            (fun rmerge => merged cmp lmerge rmerge)) := rfl

/-- A sufficient recursion-depth budget makes the exact budget irrelevant. -/
theorem merge_sortedA_congr {α : Type} (cmp : α → α → Int) :
    ∀ (f g : Nat) (xs : List α), xs.length ≤ f + 1 → xs.length ≤ g + 1 →
      merge_sortedA cmp f xs = merge_sortedA cmp g xs := by
  intro f
  induction f with
  | zero =>
    intro g xs hf _
    match xs with
    | [] => rw [merge_sortedA_nil, merge_sortedA_nil]
    | [x] => rw [merge_sortedA_single, merge_sortedA_single]
    | x :: y :: rest => simp at hf
  | succ f ih =>
    intro g xs hf hg
    match xs with
    | [] => rw [merge_sortedA_nil, merge_sortedA_nil]
    | [x] => rw [merge_sortedA_single, merge_sortedA_single]
    | x :: y :: rest =>
      match g with
      | 0 => simp at hg
      | g + 1 =>
        rw [merge_sortedA_succ, merge_sortedA_succ]
        have hlen : (x :: y :: rest).length = rest.length + 2 := by simp
        have htake : ((x :: y :: rest).take ((x :: y :: rest).length / 2)).length
            ≤ (x :: y :: rest).length - 1 := by
          rw [List.length_take]
          simp only [hlen]
          omega
        have hdrop : ((x :: y :: rest).drop ((x :: y :: rest).length / 2)).length
            ≤ (x :: y :: rest).length - 1 := by
          rw [List.length_drop]
          simp only [hlen]
          omega
        rw [ih g _ (by simp at hf ⊢; omega) (by simp at hg ⊢; omega),
          ih g _ (by simp only [hlen] at *; omega) (by simp only [hlen] at *; omega)]

/-- Budget irrelevance, phrased against `merge_sorted`. -/
theorem merge_sortedA_fuel_mono {α : Type} (cmp : α → α → Int) (fuel : Nat)
    (xs : List α) (h : xs.length ≤ fuel + 1) :
    merge_sortedA cmp fuel xs = merge_sorted cmp xs :=
  merge_sortedA_congr cmp fuel xs.length xs h (by omega)

/-- The recursive unfolding of `merge_sorted` for inputs of length ≥ 2:
split at `mid = len // 2` (so the left half gets `⌊len/2⌋` elements and the
right half the rest), sort both halves, merge. -/
theorem merge_sorted_cons₂ {α : Type} (cmp : α → α → Int) (x y : α) (rest : List α) :
    merge_sorted cmp (x :: y :: rest) =
      (merge_sorted cmp ((x :: y :: rest).take ((x :: y :: rest).length / 2))).bind
        (fun lmerge =>
          (merge_sorted cmp
              ((x :: y :: rest).drop ((x :: y :: rest).length / 2))).bind
            (fun rmerge => merged cmp lmerge rmerge)) := by
  show merge_sortedA cmp (x :: y :: rest).length (x :: y :: rest) = _
  rw [show (x :: y :: rest).length = (rest.length + 1) + 1 by simp]
  rw [merge_sortedA_succ]
  have hlen : (x :: y :: rest).length = rest.length + 2 := by simp
  rw [merge_sortedA_fuel_mono cmp _ _ (by rw [List.length_take]; simp only [hlen]; omega),
    merge_sortedA_fuel_mono cmp _ _ (by rw [List.length_drop]; simp only [hlen]; omega)]
  simp only [List.length_cons]

theorem merge_sorted_nil {α : Type} (cmp : α → α → Int) :
    merge_sorted cmp ([] : List α) = some [] := merge_sortedA_nil cmp 0

theorem merge_sorted_single {α : Type} (cmp : α → α → Int) (x : α) :
    merge_sorted cmp [x] = some [x] := merge_sortedA_single cmp 1 x

/-- Whenever `merge_sorted` terminates, its output is a permutation of the
input. -/
theorem merge_sorted_perm {α : Type} (cmp : α → α → Int) :
    ∀ (xs l : List α), merge_sorted cmp xs = some l → l.Perm xs := by
  have H : ∀ (n : Nat) (xs : List α), xs.length ≤ n → ∀ l,
      merge_sorted cmp xs = some l → l.Perm xs := by
    intro n
    induction n with
    | zero =>
      intro xs h l hl
      match xs with
      | [] => rw [merge_sorted_nil] at hl; cases hl; exact List.Perm.refl []
      | x :: xs => simp at h
    | succ n ih =>
      intro xs h l hl
      match xs with
      | [] => rw [merge_sorted_nil] at hl; cases hl; exact List.Perm.refl []
      | [x] => rw [merge_sorted_single] at hl; cases hl; exact List.Perm.refl [x]
      | x :: y :: rest =>
        rw [merge_sorted_cons₂] at hl
        cases hml : merge_sorted cmp ((x :: y :: rest).take ((x :: y :: rest).length / 2)) with
        | none => rw [hml] at hl; simp at hl
        | some lm =>
          cases hmr : merge_sorted cmp ((x :: y :: rest).drop ((x :: y :: rest).length / 2)) with
          | none => rw [hml, hmr] at hl; simp at hl
          | some rm =>
            rw [hml, hmr] at hl
            simp only [Option.some_bind] at hl
            have hlen : (x :: y :: rest).length = rest.length + 2 := by simp
            have hpl := ih _ (by rw [List.length_take]; simp only [hlen] at *; omega) lm hml
            have hpr := ih _ (by rw [List.length_drop]; simp only [hlen] at *; omega) rm hmr
            have hm := merged_perm cmp lm rm l hl
            refine hm.trans ?_
            refine (hpl.append hpr).trans ?_
            rw [List.take_append_drop]
  intro xs l hl
  exact H xs.length xs le_rfl l hl

/-- If the comparator always answers in `{-1, 0, 1}`, `merge_sorted`
terminates on every input. -/
theorem merge_sorted_isSome_of_range {α : Type} {cmp : α → α → Int}
    (hr : ∀ a b, cmp a b = -1 ∨ cmp a b = 0 ∨ cmp a b = 1) :
    ∀ xs : List α, ∃ l, merge_sorted cmp xs = some l := by
  have H : ∀ (n : Nat) (xs : List α), xs.length ≤ n →
      ∃ l, merge_sorted cmp xs = some l := by
    intro n
    induction n with
    | zero =>
      intro xs h
      match xs with
      | [] => exact ⟨[], merge_sorted_nil cmp⟩
      | x :: xs => simp at h
    | succ n ih =>
      intro xs h
      match xs with
      | [] => exact ⟨[], merge_sorted_nil cmp⟩
      | [x] => exact ⟨[x], merge_sorted_single cmp x⟩
      | x :: y :: rest =>
        have hlen : (x :: y :: rest).length = rest.length + 2 := by simp
        obtain ⟨lm, hml⟩ := ih ((x :: y :: rest).take ((x :: y :: rest).length / 2))
          (by rw [List.length_take]; simp only [hlen] at *; omega)
        obtain ⟨rm, hmr⟩ := ih ((x :: y :: rest).drop ((x :: y :: rest).length / 2))
          (by rw [List.length_drop]; simp only [hlen] at *; omega)
        obtain ⟨l, hl⟩ := merged_isSome_of_range hr lm rm
        exact ⟨l, by rw [merge_sorted_cons₂, hml, hmr]; simpa using hl⟩
  intro xs
  exact H xs.length xs le_rfl

/-- Under the comparator contract, any output of `merge_sorted` is sorted. -/
theorem merge_sorted_pairwise {α : Type} {cmp : α → α → Int} (hc : CmpContract cmp) :
    ∀ (xs l : List α), merge_sorted cmp xs = some l →
      List.Pairwise (fun a b => cmp a b ≠ 1) l := by
  have H : ∀ (n : Nat) (xs : List α), xs.length ≤ n → ∀ l,
      merge_sorted cmp xs = some l → List.Pairwise (fun a b => cmp a b ≠ 1) l := by
    intro n
    induction n with
    | zero =>
      intro xs h l hl
      match xs with
      | [] => rw [merge_sorted_nil] at hl; cases hl; exact List.Pairwise.nil
      | x :: xs => simp at h
    | succ n ih =>
      intro xs h l hl
      match xs with
      | [] => rw [merge_sorted_nil] at hl; cases hl; exact List.Pairwise.nil
      | [x] =>
        rw [merge_sorted_single] at hl; cases hl
        exact List.pairwise_cons.mpr ⟨fun a ha => absurd ha (List.not_mem_nil a),
          List.Pairwise.nil⟩
      | x :: y :: rest =>
        rw [merge_sorted_cons₂] at hl
        cases hml : merge_sorted cmp ((x :: y :: rest).take ((x :: y :: rest).length / 2)) with
        | none => rw [hml] at hl; simp at hl
        | some lm =>
          cases hmr : merge_sorted cmp ((x :: y :: rest).drop ((x :: y :: rest).length / 2)) with
          | none => rw [hml, hmr] at hl; simp at hl
          | some rm =>
            rw [hml, hmr] at hl
            simp only [Option.some_bind] at hl
            have hlen : (x :: y :: rest).length = rest.length + 2 := by simp
            have hsl := ih _ (by rw [List.length_take]; simp only [hlen] at *; omega) lm hml
            have hsr := ih _ (by rw [List.length_drop]; simp only [hlen] at *; omega) rm hmr
            exact merged_pairwise hc lm rm l hsl hsr hl
  intro xs l hl
  exact H xs.length xs le_rfl l hl

/-!
## `quick_sorted`

`quick_sorted` deep-copies its input, returns the copy for length ≤ 1, and
otherwise chooses `pivot = random.choice(xs2)`, scans `xs2` once distributing
each element into the `less_than_pivot` / `greater_than_pivot` /
`equal_to_pivot` bucket according to the comparison result (an element whose
comparison result lies outside `{-1, 0, 1}` goes into no bucket), recurses on
the less and greater buckets, and returns `less ++ equal_to_pivot ++ greater`.

`random.choice` is modelled by an oracle `pick : List α → α`; the claims
quantify over every oracle that returns an element of its (nonempty)
argument (`ValidPick`).  As with `merge_sorted`, the recursion carries a
depth budget; `xs.length` is sufficient whenever the comparator satisfies
the contract and the oracle is valid, because the pivot always lands in the
equal bucket, making both recursive buckets strictly shorter. -/
def quick_sortedA {α : Type} (cmp : α → α → Int) (pick : List α → α) (fuel : Nat)
    (xs : List α) : Option (List α) :=
  match xs with
  | [] => some []
  | [x] => some [x]
  | x :: y :: rest =>
    match fuel with
    | 0 => none
    | fuel + 1 =>
      let xs2 := x :: y :: rest
      let pivot := pick xs2
      let less_than_pivot := xs2.filter (fun items => cmp items pivot == -1)
      let greater_than_pivot := xs2.filter (fun items => cmp items pivot == 1)
      let equal_to_pivot := xs2.filter (fun items => cmp items pivot == 0)
      (quick_sortedA cmp pick fuel less_than_pivot).bind fun less =>
        (quick_sortedA cmp pick fuel greater_than_pivot).bind fun greater =>
          some (less ++ equal_to_pivot ++ greater)

/-- Embeds `quick_sorted(xs, cmp)` from `sorting.py`, with the random pivot
choice supplied by the oracle `pick`. -/
def quick_sorted {α : Type} (cmp : α → α → Int) (pick : List α → α)
    (xs : List α) : Option (List α) :=
  quick_sortedA cmp pick xs.length xs

/-- The property of a pivot-choice oracle that models `random.choice`: on a
nonempty list it returns one of its elements. -/
def ValidPick {α : Type} (pick : List α → α) : Prop :=
  ∀ l : List α, l ≠ [] → pick l ∈ l

/-- A concrete valid oracle (always picks the head), used to instantiate
claims at concrete inputs. -/
def pickHead {α : Type} [Inhabited α] (l : List α) : α := l.headD default

theorem pickHead_valid {α : Type} [Inhabited α] : ValidPick (@pickHead α _) := by
  intro l hl
  match l with
  | [] => exact absurd rfl hl
  | x :: xs => exact List.mem_cons_self x xs

theorem quick_sortedA_nil {α : Type} (cmp : α → α → Int) (pick : List α → α)
    (fuel : Nat) : quick_sortedA cmp pick fuel ([] : List α) = some [] := by
  cases fuel <;> rfl

theorem quick_sortedA_single {α : Type} (cmp : α → α → Int) (pick : List α → α)
    (fuel : Nat) (x : α) : quick_sortedA cmp pick fuel [x] = some [x] := by
  cases fuel <;> rfl

theorem quick_sortedA_succ {α : Type} (cmp : α → α → Int) (pick : List α → α)
    (fuel : Nat) (x y : α) (rest : List α) :
    quick_sortedA cmp pick (fuel + 1) (x :: y :: rest) =
      (quick_sortedA cmp pick fuel
          ((x :: y :: rest).filter (fun items => cmp items (pick (x :: y :: rest)) == -1))).bind
        fun less =>
          (quick_sortedA cmp pick fuel
              ((x :: y :: rest).filter
                (fun items => cmp items (pick (x :: y :: rest)) == 1))).bind
            fun greater =>
              some (less ++
                (x :: y :: rest).filter
                  (fun items => cmp items (pick (x :: y :: rest)) == 0) ++ greater) := rfl

/-- The single forward scan of `quick_sorted` partitions the list: when every
comparison against the pivot answers in `{-1, 0, 1}`, concatenating the
buckets in output order recovers a permutation of the input. -/
theorem filter_partition_perm {α : Type} (cmp : α → α → Int) (p : α)
    (hr : ∀ z, cmp z p = -1 ∨ cmp z p = 0 ∨ cmp z p = 1) (xs : List α) :
    (xs.filter (fun z => cmp z p == -1) ++ xs.filter (fun z => cmp z p == 0) ++
      xs.filter (fun z => cmp z p == 1)).Perm xs := by
  induction xs with
  | nil => simp
  | cons x xs ih =>
    rcases hr x with h | h | h
    · simp only [List.filter_cons, h]
      norm_num
      simpa [List.append_assoc] using ih
    · simp only [List.filter_cons, h]
      norm_num
      refine List.Perm.trans ?_ (ih.cons x)
      simp
    · simp only [List.filter_cons, h]
      norm_num
      refine List.Perm.trans ?_ (ih.cons x)
      have := @List.perm_middle α x
        (xs.filter (fun z => cmp z p == -1) ++ xs.filter (fun z => cmp z p == 0))
        (xs.filter (fun z => cmp z p == 1))
      simpa using this

/-- Whenever `quick_sorted` terminates and the comparator answers in
`{-1, 0, 1}`, the output is a permutation of the input. -/
theorem quick_sortedA_perm {α : Type} {cmp : α → α → Int}
    (hr : ∀ a b, cmp a b = -1 ∨ cmp a b = 0 ∨ cmp a b = 1) (pick : List α → α) :
    ∀ (fuel : Nat) (xs l : List α), quick_sortedA cmp pick fuel xs = some l →
      l.Perm xs := by
  intro fuel
  induction fuel with
  | zero =>
    intro xs l hl
    match xs with
    | [] => rw [quick_sortedA_nil] at hl; cases hl; exact List.Perm.refl []
    | [x] => rw [quick_sortedA_single] at hl; cases hl; exact List.Perm.refl [x]
    | x :: y :: rest => cases hl
  | succ fuel ih =>
    intro xs l hl
    match xs with
    | [] => rw [quick_sortedA_nil] at hl; cases hl; exact List.Perm.refl []
    | [x] => rw [quick_sortedA_single] at hl; cases hl; exact List.Perm.refl [x]
    | x :: y :: rest =>
      rw [quick_sortedA_succ] at hl
      set xs2 := x :: y :: rest with hxs2
      set pivot := pick xs2 with hpivot
      cases hless : quick_sortedA cmp pick fuel
          (xs2.filter (fun items => cmp items pivot == -1)) with
      | none => rw [hless] at hl; simp at hl
      | some less =>
        cases hgreater : quick_sortedA cmp pick fuel
            (xs2.filter (fun items => cmp items pivot == 1)) with
        | none => rw [hless, hgreater] at hl; simp at hl
        | some greater =>
          rw [hless, hgreater] at hl
          simp only [Option.some_bind, Option.some.injEq] at hl
          subst hl
          have pl := ih _ less hless
          have pg := ih _ greater hgreater
          have base := filter_partition_perm cmp pivot (fun z => hr z pivot) xs2
          exact ((pl.append (List.Perm.refl _)).append pg).trans base

/-- Under the contract, the pivot falls into the equal bucket, so the less
and greater buckets are strictly shorter than the list being split. -/
theorem bucket_length_lt {α : Type} {cmp : α → α → Int} (hc : CmpContract cmp)
    {pick : List α → α} (hp : ValidPick pick) (x y : α) (rest : List α)
    (c : Int) (hcne : c ≠ 0) :
    ((x :: y :: rest).filter
      (fun z => cmp z (pick (x :: y :: rest)) == c)).length < (x :: y :: rest).length := by
  apply List.length_filter_lt_length_iff_exists.mpr
  refine ⟨pick (x :: y :: rest), hp _ (by simp), ?_⟩
  rw [hc.refl]
  simp only [beq_iff_eq]
  omega

/-- Under the contract and a valid pivot oracle, a recursion budget of
`xs.length` suffices: `quick_sorted` terminates. -/
theorem quick_sortedA_isSome {α : Type} {cmp : α → α → Int} (hc : CmpContract cmp)
    {pick : List α → α} (hp : ValidPick pick) :
    ∀ (fuel : Nat) (xs : List α), xs.length ≤ fuel + 1 →
      ∃ l, quick_sortedA cmp pick fuel xs = some l := by
  intro fuel
  induction fuel with
  | zero =>
    intro xs h
    match xs with
    | [] => exact ⟨[], quick_sortedA_nil cmp pick 0⟩
    | [x] => exact ⟨[x], quick_sortedA_single cmp pick 0 x⟩
    | x :: y :: rest => simp at h
  | succ fuel ih =>
    intro xs h
    match xs with
    | [] => exact ⟨[], quick_sortedA_nil cmp pick _⟩
    | [x] => exact ⟨[x], quick_sortedA_single cmp pick _ x⟩
    | x :: y :: rest =>
      obtain ⟨less, hless⟩ := ih
        ((x :: y :: rest).filter (fun z => cmp z (pick (x :: y :: rest)) == -1))
        (by have hb := bucket_length_lt hc hp x y rest (-1) (by decide); omega)
      obtain ⟨greater, hgreater⟩ := ih
        ((x :: y :: rest).filter (fun z => cmp z (pick (x :: y :: rest)) == 1))
        (by have hb := bucket_length_lt hc hp x y rest 1 (by decide); omega)
      refine ⟨less ++
        (x :: y :: rest).filter (fun z => cmp z (pick (x :: y :: rest)) == 0) ++ greater, ?_⟩
      rw [quick_sortedA_succ, hless, hgreater]
      rfl

/-- A sufficient recursion budget makes the exact budget irrelevant. -/
theorem quick_sortedA_congr {α : Type} {cmp : α → α → Int} (hc : CmpContract cmp)
    {pick : List α → α} (hp : ValidPick pick) :
    ∀ (f g : Nat) (xs : List α), xs.length ≤ f + 1 → xs.length ≤ g + 1 →
      quick_sortedA cmp pick f xs = quick_sortedA cmp pick g xs := by
  intro f
  induction f with
  | zero =>
    intro g xs hf _
    match xs with
    | [] => rw [quick_sortedA_nil, quick_sortedA_nil]
    | [x] => rw [quick_sortedA_single, quick_sortedA_single]
    | x :: y :: rest => simp at hf
  | succ f ih =>
    intro g xs hf hg
    match xs with
    | [] => rw [quick_sortedA_nil, quick_sortedA_nil]
    | [x] => rw [quick_sortedA_single, quick_sortedA_single]
    | x :: y :: rest =>
      match g with
      | 0 => simp at hg
      | g + 1 =>
        rw [quick_sortedA_succ, quick_sortedA_succ]
        have hl := bucket_length_lt hc hp x y rest (-1) (by decide)
        have hg' := bucket_length_lt hc hp x y rest 1 (by decide)
        rw [ih g _ (by simp at hf hl ⊢; omega) (by simp at hg hl ⊢; omega),
          ih g _ (by simp at hf hg' ⊢; omega) (by simp at hg hg' ⊢; omega)]

/-- Budget irrelevance, phrased against `quick_sorted`. -/
theorem quick_sortedA_fuel_mono {α : Type} {cmp : α → α → Int} (hc : CmpContract cmp)
    {pick : List α → α} (hp : ValidPick pick) (fuel : Nat) (xs : List α)
    (h : xs.length ≤ fuel + 1) :
    quick_sortedA cmp pick fuel xs = quick_sorted cmp pick xs :=
  quick_sortedA_congr hc hp fuel xs.length xs h (by omega)

/-- Under the comparator contract and a valid pivot oracle, any output of
`quick_sorted` is sorted. -/
theorem quick_sortedA_pairwise {α : Type} {cmp : α → α → Int} (hc : CmpContract cmp)
    {pick : List α → α} :
    ∀ (fuel : Nat) (xs l : List α), quick_sortedA cmp pick fuel xs = some l →
      List.Pairwise (fun a b => cmp a b ≠ 1) l := by
  intro fuel
  induction fuel with
  | zero =>
    intro xs l hl
    match xs with
    | [] => rw [quick_sortedA_nil] at hl; cases hl; exact List.Pairwise.nil
    | [x] => rw [quick_sortedA_single] at hl; cases hl; simp
    | x :: y :: rest => cases hl
  | succ fuel ih =>
    intro xs l hl
    match xs with
    | [] => rw [quick_sortedA_nil] at hl; cases hl; exact List.Pairwise.nil
    | [x] => rw [quick_sortedA_single] at hl; cases hl; simp
    | x :: y :: rest =>
      rw [quick_sortedA_succ] at hl
      set xs2 := x :: y :: rest with hxs2
      set pivot := pick xs2 with hpivot
      cases hless : quick_sortedA cmp pick fuel
          (xs2.filter (fun items => cmp items pivot == -1)) with
      | none => rw [hless] at hl; simp at hl
      | some less =>
        cases hgreater : quick_sortedA cmp pick fuel
            (xs2.filter (fun items => cmp items pivot == 1)) with
        | none => rw [hless, hgreater] at hl; simp at hl
        | some greater =>
          rw [hless, hgreater] at hl
          simp only [Option.some_bind, Option.some.injEq] at hl
          subst hl
          have hrange := hc.range
          have pless := quick_sortedA_perm hrange pick fuel _ less hless
          have pgreater := quick_sortedA_perm hrange pick fuel _ greater hgreater
          have hmless : ∀ z ∈ less, cmp z pivot = -1 := by
            intro z hz
            have := pless.mem_iff.mp hz
            have := (List.mem_filter.mp this).2
            simpa using this
          have hmgreater : ∀ z ∈ greater, cmp z pivot = 1 := by
            intro z hz
            have := pgreater.mem_iff.mp hz
            have := (List.mem_filter.mp this).2
            simpa using this
          have hmequal : ∀ z ∈ xs2.filter (fun items => cmp items pivot == 0),
              cmp z pivot = 0 := by
            intro z hz
            have := (List.mem_filter.mp hz).2
            simpa using this
          rw [List.pairwise_append, List.pairwise_append]
          refine ⟨⟨ih _ less hless, ?_, ?_⟩, ih _ greater hgreater, ?_⟩
          · -- equal bucket: all its elements are pairwise equivalent
            apply List.pairwise_of_forall_mem_list
            intro a ha b hb
            have h1 := hmequal a ha
            have h2 := hmequal b hb
            have : cmp a b = cmp pivot b := hc.congr_left h1 b
            rw [this, hc.symm0 h2]
            decide
          · -- less before equal
            intro a ha b hb
            have h1 := hmless a ha
            have h2 := hmequal b hb
            have : cmp a b = cmp a pivot := hc.congr_right h2 a
            rw [this, h1]
            decide
          · -- (less ++ equal) before greater
            intro a ha b hb
            have h2 := hmgreater b hb
            have hpb : cmp pivot b ≠ 1 := by
              have := (hc.flip pivot b).mpr h2
              rw [this]; decide
            rcases List.mem_append.mp ha with ha' | ha'
            · have h1 := hmless a ha'
              exact hc.le_trans a pivot b (by rw [h1]; decide) hpb
            · have h1 := hmequal a ha'
              exact hc.le_trans a pivot b (by rw [h1]; decide) hpb

/-- `quick_sorted` is stable: for every reference element `v`, the
subsequence of output elements comparator-equivalent to `v` is exactly the
corresponding subsequence of the input, in input order.  (Equivalent elements
travel through the same bucket at every level of the recursion, and the
equal bucket is emitted in scan order.) -/
theorem quick_sortedA_filter {α : Type} {cmp : α → α → Int} (hc : CmpContract cmp)
    {pick : List α → α} :
    ∀ (fuel : Nat) (xs l : List α), quick_sortedA cmp pick fuel xs = some l →
      ∀ v, l.filter (fun z => cmp z v == 0) = xs.filter (fun z => cmp z v == 0) := by
  intro fuel
  induction fuel with
  | zero =>
    intro xs l hl v
    match xs with
    | [] => rw [quick_sortedA_nil] at hl; cases hl; rfl
    | [x] => rw [quick_sortedA_single] at hl; cases hl; rfl
    | x :: y :: rest => cases hl
  | succ fuel ih =>
    intro xs l hl v
    match xs with
    | [] => rw [quick_sortedA_nil] at hl; cases hl; rfl
    | [x] => rw [quick_sortedA_single] at hl; cases hl; rfl
    | x :: y :: rest =>
      rw [quick_sortedA_succ] at hl
      set xs2 := x :: y :: rest with hxs2
      set pivot := pick xs2 with hpivot
      cases hless : quick_sortedA cmp pick fuel
          (xs2.filter (fun items => cmp items pivot == -1)) with
      | none => rw [hless] at hl; simp at hl
      | some less =>
        cases hgreater : quick_sortedA cmp pick fuel
            (xs2.filter (fun items => cmp items pivot == 1)) with
        | none => rw [hless, hgreater] at hl; simp at hl
        | some greater =>
          rw [hless, hgreater] at hl
          simp only [Option.some_bind, Option.some.injEq] at hl
          subst hl
          rw [List.filter_append, List.filter_append]
          rw [ih _ less hless v, ih _ greater hgreater v]
          rw [List.filter_filter, List.filter_filter, List.filter_filter]
          by_cases hpv : cmp pivot v = 0
          · -- the pivot's own class: everything equivalent to v sits in the
            -- equal bucket
            have hz : ∀ z, cmp z pivot = cmp z v := fun z => hc.congr_right hpv z
            have e1 : xs2.filter (fun a => (cmp a v == 0) && (cmp a pivot == -1)) = [] := by
              rw [List.filter_eq_nil_iff]
              intro a _
              rw [hz a]
              by_cases h : cmp a v = 0 <;> simp [h]
            have e3 : xs2.filter (fun a => (cmp a v == 0) && (cmp a pivot == 1)) = [] := by
              rw [List.filter_eq_nil_iff]
              intro a _
              rw [hz a]
              by_cases h : cmp a v = 0 <;> simp [h]
            have e2 : xs2.filter (fun a => (cmp a v == 0) && (cmp a pivot == 0)) =
                xs2.filter (fun z => cmp z v == 0) := by
              apply List.filter_congr
              intro a _
              rw [hz a]
              by_cases h : cmp a v = 0 <;> simp [h]
            rw [e1, e2, e3]
            simp
          · -- a class other than the pivot's: the equal bucket contributes
            -- nothing, and the whole class sits in one of the two other
            -- buckets (all its members compare to the pivot like `v` does)
            have e2 : xs2.filter (fun a => (cmp a v == 0) && (cmp a pivot == 0)) = [] := by
              rw [List.filter_eq_nil_iff]
              intro a _
              by_cases h : cmp a pivot = 0
              · have : cmp a v = cmp pivot v := hc.congr_left h v
                simp [this, hpv]
              · simp [h]
            have hc0 : cmp v pivot ≠ 0 := fun h => hpv (hc.symm0 h)
            have hclass : ∀ z, cmp z v = 0 → cmp z pivot = cmp v pivot :=
              fun z hzv => hc.congr_left hzv pivot
            rcases hc.range v pivot with hvp | hvp | hvp
            · -- the class of v lies strictly below the pivot
              have e3 : xs2.filter (fun a => (cmp a v == 0) && (cmp a pivot == 1)) = [] := by
                rw [List.filter_eq_nil_iff]
                intro a _
                by_cases h : cmp a v = 0
                · have := hclass a h
                  rw [this, hvp]
                  simp
                · simp [h]
              have e1 : xs2.filter (fun a => (cmp a v == 0) && (cmp a pivot == -1)) =
                  xs2.filter (fun z => cmp z v == 0) := by
                apply List.filter_congr
                intro a _
                by_cases h : cmp a v = 0
                · have := hclass a h
                  rw [this, hvp]
                  simp [h]
                · simp [h]
              rw [e1, e2, e3]
              simp
            · exact absurd hvp hc0
            · -- the class of v lies strictly above the pivot
              have e1 : xs2.filter (fun a => (cmp a v == 0) && (cmp a pivot == -1)) = [] := by
                rw [List.filter_eq_nil_iff]
                intro a _
                by_cases h : cmp a v = 0
                · have := hclass a h
                  rw [this, hvp]
                  simp
                · simp [h]
              have e3 : xs2.filter (fun a => (cmp a v == 0) && (cmp a pivot == 1)) =
                  xs2.filter (fun z => cmp z v == 0) := by
                apply List.filter_congr
                intro a _
                by_cases h : cmp a v = 0
                · have := hclass a h
                  rw [this, hvp]
                  simp [h]
                · simp [h]
              rw [e1, e2, e3]
              simp

/-- A sorted list is determined by its comparator-equivalence-class
subsequences: two sorted lists whose class subsequences all agree are equal.
(Sortedness fixes the order of the classes; the subsequences fix the order
within each class.) -/
theorem stable_sorted_unique {α : Type} {cmp : α → α → Int} (hc : CmpContract cmp) :
    ∀ (l₁ l₂ : List α), List.Pairwise (fun a b => cmp a b ≠ 1) l₁ →
      List.Pairwise (fun a b => cmp a b ≠ 1) l₂ →
      (∀ v, l₁.filter (fun z => cmp z v == 0) = l₂.filter (fun z => cmp z v == 0)) →
      l₁ = l₂ := by
  intro l₁
  induction l₁ with
  | nil =>
    intro l₂ _ _ hf
    cases l₂ with
    | nil => rfl
    | cons y t₂ =>
      exfalso
      have := hf y
      rw [List.filter_cons, if_pos (by simp [hc.refl y])] at this
      exact List.cons_ne_nil y _ this.symm
  | cons x t₁ ih =>
    intro l₂ h1 h2 hf
    cases l₂ with
    | nil =>
      exfalso
      have := hf x
      rw [List.filter_cons, if_pos (by simp [hc.refl x])] at this
      exact List.cons_ne_nil x _ this
    | cons y t₂ =>
      rw [List.pairwise_cons] at h1 h2
      have hx2 : x ∈ y :: t₂ := by
        have hx_in : x ∈ (y :: t₂).filter (fun z => cmp z x == 0) := by
          rw [← hf x, List.filter_cons, if_pos (by simp [hc.refl x])]
          exact List.mem_cons_self _ _
        exact (List.mem_filter.mp hx_in).1
      have hy1 : y ∈ x :: t₁ := by
        have hy_in : y ∈ (x :: t₁).filter (fun z => cmp z y == 0) := by
          rw [hf y, List.filter_cons, if_pos (by simp [hc.refl y])]
          exact List.mem_cons_self _ _
        exact (List.mem_filter.mp hy_in).1
      have hyx : cmp y x ≠ 1 := by
        rcases List.mem_cons.mp hx2 with h' | h'
        · rw [h', hc.refl]; decide
        · exact h2.1 x h'
      have hxy1 : cmp x y ≠ 1 := by
        rcases List.mem_cons.mp hy1 with h' | h'
        · rw [h', hc.refl]; decide
        · exact h1.1 y h'
      have hxy : cmp x y = 0 := hc.eq_zero_of_ne_one hxy1 hyx
      have hfx := hf x
      rw [List.filter_cons, List.filter_cons, if_pos (by simp [hc.refl x]),
        if_pos (by simp [hc.symm0 hxy])] at hfx
      injection hfx with hhead _
      subst hhead
      have hft : ∀ v, t₁.filter (fun z => cmp z v == 0) =
          t₂.filter (fun z => cmp z v == 0) := by
        intro v
        have hv := hf v
        rw [List.filter_cons, List.filter_cons] at hv
        by_cases h : cmp x v = 0
        · rw [if_pos (by simp [h]), if_pos (by simp [h])] at hv
          injection hv
        · rw [if_neg (by simp [h]), if_neg (by simp [h])] at hv
          exact hv
      rw [ih t₂ h1.2 h2.2 hft]

/-- The output of `quick_sorted` does not depend on which pivots the random
choice selects: any two valid pivot oracles give identical outputs. -/
theorem quick_sorted_pick_irrelevant {α : Type} {cmp : α → α → Int}
    (hc : CmpContract cmp) {pick₁ pick₂ : List α → α} (hp₁ : ValidPick pick₁)
    (hp₂ : ValidPick pick₂) (xs : List α) :
    quick_sorted cmp pick₁ xs = quick_sorted cmp pick₂ xs := by
  obtain ⟨l₁, hl₁⟩ := quick_sortedA_isSome hc hp₁ xs.length xs (by omega)
  obtain ⟨l₂, hl₂⟩ := quick_sortedA_isSome hc hp₂ xs.length xs (by omega)
  have e : l₁ = l₂ := by
    apply stable_sorted_unique hc l₁ l₂
      (quick_sortedA_pairwise hc _ xs l₁ hl₁)
      (quick_sortedA_pairwise hc _ xs l₂ hl₂)
    intro v
    rw [quick_sortedA_filter hc _ xs l₁ hl₁ v, quick_sortedA_filter hc _ xs l₂ hl₂ v]
  show quick_sortedA cmp pick₁ xs.length xs = quick_sortedA cmp pick₂ xs.length xs
  rw [hl₁, hl₂, e]

/-- `quick_sorted` is idempotent: applied to an already sorted list it
returns exactly that list. -/
theorem quick_sorted_of_pairwise {α : Type} {cmp : α → α → Int}
    (hc : CmpContract cmp) {pick : List α → α} (hp : ValidPick pick)
    (xs : List α) (hs : List.Pairwise (fun a b => cmp a b ≠ 1) xs) :
    quick_sorted cmp pick xs = some xs := by
  obtain ⟨l, hl⟩ := quick_sortedA_isSome hc hp xs.length xs (by omega)
  have e : l = xs :=
    stable_sorted_unique hc l xs (quick_sortedA_pairwise hc _ xs l hl) hs
      (quick_sortedA_filter hc _ xs l hl)
  show quick_sortedA cmp pick xs.length xs = some xs
  rw [hl, e]

/-!
## `quick_sort` (in-place)

The Python `quick_sort` defines `_partition` and `_quicksort` over an index
range `[lo, hi]` and mutates the list through element swaps.  We model the
mutable list by value passing: each function returns the final contents of
the array.  Python's `lo`, `hi`, `i`, `j` are `Int`s (the top-level call uses
`hi = len(xs) - 1`, which is `-1` for an empty list); list indexing is via
`getD`/`set` at `toNat`-converted indices, which all call sites keep in
range.

IMPORTANT modelling note, faithful to the source: in `_partition` the three
pivot-placement statements and the `return i + 1` are indented *inside* the
`for j in range(lo, hi)` loop body, so `_partition` returns at the end of the
first iteration (`j = lo`).  Only that single iteration ever executes.
-/

/-- Python's `temp = a[i]; a[i] = a[j]; a[j] = temp` swap on list values. -/
def listSwap {α : Type} [Inhabited α] (l : List α) (i j : Nat) : List α :=
  let a := l.getD i default
  let b := l.getD j default
  (l.set i b).set j a

theorem listSwap_length {α : Type} [Inhabited α] (l : List α) (i j : Nat) :
    (listSwap l i j).length = l.length := by
  simp [listSwap]

theorem cons_getD_set_perm {α : Type} [Inhabited α] :
    ∀ (xs : List α) (j : Nat) (x : α), j < xs.length →
      (xs.getD j default :: xs.set j x).Perm (x :: xs) := by
  intro xs
  induction xs with
  | nil => intro j x h; simp at h
  | cons y ys ih =>
    intro j x h
    cases j with
    | zero => simpa using List.Perm.swap x y ys
    | succ j =>
      have hj : j < ys.length := by simpa using h
      have step := (ih j x hj).cons y
      exact (List.Perm.swap y _ _).trans (step.trans (List.Perm.swap x y ys))

/-- Swapping two in-range positions permutes the list. -/
theorem listSwap_perm {α : Type} [Inhabited α] :
    ∀ (l : List α) (i j : Nat), i < l.length → j < l.length →
      (listSwap l i j).Perm l := by
  intro l
  induction l with
  | nil => intro i j hi _; simp at hi
  | cons x xs ih =>
    intro i j hi hj
    cases i with
    | zero =>
      cases j with
      | zero => simp [listSwap]
      | succ j =>
        have hj' : j < xs.length := by simpa using hj
        simpa [listSwap] using cons_getD_set_perm xs j x hj'
    | succ i =>
      cases j with
      | zero =>
        have hi' : i < xs.length := by simpa using hi
        simpa [listSwap] using cons_getD_set_perm xs i x hi'
      | succ j =>
        have hi' : i < xs.length := by simpa using hi
        have hj' : j < xs.length := by simpa using hj
        simpa [listSwap] using (ih i j hi' hj').cons x

/-- Embeds the (buggy) `_partition` from `sorting.py`.  Because the final
swap and the `return` sit inside the scan loop, only the first iteration
`j = lo` runs: the two `if` branches (`comparison == -1` / `comparison == 0`)
both increment `i` to `lo` and swap `array[lo]` with itself; then the element
at `i + 1` is exchanged with the pivot slot `hi` and `i + 1` is returned. -/
def _partition {α : Type} [Inhabited α] (cmp : α → α → Int) (array : List α)
    (lo hi : Int) : List α × Int :=
  let pivot := array.getD hi.toNat default
  let comparison := cmp (array.getD lo.toNat default) pivot
  let step : List α × Int :=
    if comparison = -1 then (listSwap array lo.toNat lo.toNat, lo)
    else if comparison = 0 then (listSwap array lo.toNat lo.toNat, lo)
    else (array, lo - 1)
  (listSwap step.1 (step.2 + 1).toNat hi.toNat, step.2 + 1)

/-- The returned partition index is always `lo` or `lo + 1`. -/
theorem _partition_snd {α : Type} [Inhabited α] (cmp : α → α → Int)
    (array : List α) (lo hi : Int) :
    (_partition cmp array lo hi).2 = lo ∨ (_partition cmp array lo hi).2 = lo + 1 := by
  simp only [_partition]
  split_ifs <;> simp

theorem _partition_length {α : Type} [Inhabited α] (cmp : α → α → Int)
    (array : List α) (lo hi : Int) :
    (_partition cmp array lo hi).1.length = array.length := by
  simp only [_partition]
  split_ifs <;> simp [listSwap_length]

/-- `_partition` only swaps elements, so it permutes the array. -/
theorem _partition_perm {α : Type} [Inhabited α] (cmp : α → α → Int)
    (array : List α) (lo hi : Int) (h0 : 0 ≤ lo) (hlh : lo < hi)
    (hhi : hi < (array.length : Int)) :
    (_partition cmp array lo hi).1.Perm array := by
  have hlo_lt : lo.toNat < array.length := by omega
  have hhi_lt : hi.toNat < array.length := by omega
  simp only [_partition]
  split_ifs
  · refine (listSwap_perm _ _ _ ?_ ?_).trans (listSwap_perm array _ _ hlo_lt hlo_lt)
    · rw [listSwap_length]; omega
    · rw [listSwap_length]; omega
  · refine (listSwap_perm _ _ _ ?_ ?_).trans (listSwap_perm array _ _ hlo_lt hlo_lt)
    · rw [listSwap_length]; omega
    · rw [listSwap_length]; omega
  · exact listSwap_perm array _ _ (by omega) hhi_lt

/-- Embeds `_quicksort` from `sorting.py` with a recursion-depth budget.  The
Python recursion always terminates (each partition call returns `lo` or
`lo + 1`, so the left recursion is trivial and the right range shrinks); a
budget of `hi - lo + 1 ≤ xs.length` steps is sufficient, and the theorems
below hold for every budget. -/
def _quicksortA {α : Type} [Inhabited α] (cmp : α → α → Int) :
    Nat → List α → Int → Int → List α
  | 0, array, _, _ => array
  | fuel + 1, array, lo, hi =>
    if lo < hi then
      let pr := _partition cmp array lo hi
      let a2 := _quicksortA cmp fuel pr.1 lo (pr.2 - 1)
      _quicksortA cmp fuel a2 (pr.2 + 1) hi
    else array

/-- Embeds `quick_sort(xs, cmp)` from `sorting.py`: runs the in-place
`_quicksort` over the whole range and returns the final contents of the
mutated list. -/
def quick_sort {α : Type} [Inhabited α] (cmp : α → α → Int) (xs : List α) :
    List α :=
  _quicksortA cmp xs.length xs 0 ((xs.length : Int) - 1)

theorem _quicksortA_zero {α : Type} [Inhabited α] (cmp : α → α → Int)
    (array : List α) (lo hi : Int) : _quicksortA cmp 0 array lo hi = array := rfl

theorem _quicksortA_succ {α : Type} [Inhabited α] (cmp : α → α → Int)
    (fuel : Nat) (array : List α) (lo hi : Int) :
    _quicksortA cmp (fuel + 1) array lo hi =
      (if lo < hi then
        _quicksortA cmp fuel
          (_quicksortA cmp fuel (_partition cmp array lo hi).1 lo
            ((_partition cmp array lo hi).2 - 1))
          ((_partition cmp array lo hi).2 + 1) hi
      else array) := rfl

/-- `_quicksort` only rearranges the array through swaps: its result is a
permutation of its input, for any comparator and any budget. -/
theorem _quicksortA_perm {α : Type} [Inhabited α] (cmp : α → α → Int) :
    ∀ (fuel : Nat) (array : List α) (lo hi : Int), 0 ≤ lo →
      hi < (array.length : Int) → (_quicksortA cmp fuel array lo hi).Perm array := by
  intro fuel
  induction fuel with
  | zero => intro array lo hi _ _; exact List.Perm.refl array
  | succ fuel ih =>
    intro array lo hi h0 hhi
    rw [_quicksortA_succ]
    by_cases h : lo < hi
    · rw [if_pos h]
      have hsnd := _partition_snd cmp array lo hi
      have hp := _partition_perm cmp array lo hi h0 h hhi
      have hlen1 : (_partition cmp array lo hi).1.length = array.length :=
        _partition_length cmp array lo hi
      have ih1 := ih (_partition cmp array lo hi).1 lo
        ((_partition cmp array lo hi).2 - 1) h0 (by rw [hlen1]; omega)
      have hlen2 := ih1.length_eq
      have ih2 := ih _ ((_partition cmp array lo hi).2 + 1) hi (by omega)
        (by rw [hlen2, hlen1]; omega)
      exact ih2.trans (ih1.trans hp)
    · rw [if_neg h]

/-- `quick_sort` always returns a permutation of its input, whatever the
comparator does. -/
theorem quick_sort_perm {α : Type} [Inhabited α] (cmp : α → α → Int)
    (xs : List α) : (quick_sort cmp xs).Perm xs :=
  _quicksortA_perm cmp xs.length xs 0 ((xs.length : Int) - 1) (by omega) (by omega)

/-!
## Heap model (object identity and mutation)

To state the frame/aliasing claims (which Python lists are mutated, and
whether the returned list is the argument object or a fresh one), we model
the Python heap explicitly: a heap is a store of list objects addressed by
references, `alloc` appends a fresh object, `write` mutates an existing one.
The three sorting entry points are re-embedded against this heap; the pure
embeddings above describe the list *values*, these describe the *objects*.
-/

/-- A store of Python list objects; reference `r` denotes `cells[r]`. -/
structure PyHeap (α : Type) where
  cells : List (List α)
deriving DecidableEq

def PyHeap.size {α : Type} (h : PyHeap α) : Nat := h.cells.length

def PyHeap.read {α : Type} (h : PyHeap α) (r : Nat) : List α := h.cells.getD r []

def PyHeap.write {α : Type} (h : PyHeap α) (r : Nat) (v : List α) : PyHeap α :=
  ⟨h.cells.set r v⟩

def PyHeap.alloc {α : Type} (h : PyHeap α) (v : List α) : PyHeap α × Nat :=
  (⟨h.cells ++ [v]⟩, h.cells.length)

theorem PyHeap.size_alloc {α : Type} (h : PyHeap α) (v : List α) :
    (h.alloc v).1.size = h.size + 1 := by
  simp [PyHeap.alloc, PyHeap.size]

theorem PyHeap.alloc_ref {α : Type} (h : PyHeap α) (v : List α) :
    (h.alloc v).2 = h.size := rfl

theorem PyHeap.read_alloc_self {α : Type} (h : PyHeap α) (v : List α) :
    (h.alloc v).1.read (h.alloc v).2 = v := by
  simp [PyHeap.alloc, PyHeap.read, List.getD_append_right]

theorem PyHeap.read_alloc_lt {α : Type} (h : PyHeap α) (v : List α) {r : Nat}
    (hr : r < h.size) : (h.alloc v).1.read r = h.read r := by
  simp only [PyHeap.alloc, PyHeap.read]
  rw [List.getD_append]
  exact hr

theorem PyHeap.size_write {α : Type} (h : PyHeap α) (r : Nat) (v : List α) :
    (h.write r v).size = h.size := by
  simp [PyHeap.write, PyHeap.size]

theorem PyHeap.read_write_self {α : Type} (h : PyHeap α) {r : Nat} (v : List α)
    (hr : r < h.size) : (h.write r v).read r = v := by
  simp only [PyHeap.write, PyHeap.read]
  rw [List.getD_eq_getElem?_getD, List.getElem?_set_self, Option.getD_some]
  exact hr

theorem PyHeap.read_write_ne {α : Type} (h : PyHeap α) {r s : Nat} (v : List α)
    (hne : s ≠ r) : (h.write r v).read s = h.read s := by
  simp only [PyHeap.write, PyHeap.read]
  rw [List.getD_eq_getElem?_getD, List.getD_eq_getElem?_getD,
    List.getElem?_set_ne (fun h => hne h.symm)]

/-- Heap-level embedding of the `_merged` while loop.  The loop only reads
`xs` and `ys` (so their values are taken at entry; the loop writes only the
freshly allocated `new_list` at `racc`, which is distinct from the argument
references) and appends the emitted element(s) to `new_list` each iteration.
Returns the final heap and final cursor values, or `none` on divergence. -/
def mergedLoopH {α : Type} [Inhabited α] (cmp : α → α → Int) (xs ys : List α) :
    Nat → PyHeap α → Nat → Nat → Nat → Option (PyHeap α × Nat × Nat)
  | fuel, h, racc, c1, c2 =>
    if c1 < xs.length ∧ c2 < ys.length then
      match fuel with
      | 0 => none
      | fuel + 1 =>
        let number := cmp (xs.getD c1 default) (ys.getD c2 default)
        if number = -1 then
          mergedLoopH cmp xs ys fuel
            (h.write racc (h.read racc ++ [xs.getD c1 default])) racc (c1 + 1) c2
        else if number = 1 then
          mergedLoopH cmp xs ys fuel
            (h.write racc (h.read racc ++ [ys.getD c2 default])) racc c1 (c2 + 1)
        else if number = 0 then
          let h1 := h.write racc (h.read racc ++ [xs.getD c1 default])
          let h2 := h1.write racc (h1.read racc ++ [ys.getD c2 default])
          mergedLoopH cmp xs ys fuel h2 racc (c1 + 1) (c2 + 1)
        else none
    else some (h, c1, c2)

/-- The merge loop writes only to `racc` and allocates nothing. -/
theorem mergedLoopH_frame {α : Type} [Inhabited α] (cmp : α → α → Int)
    (xs ys : List α) :
    ∀ (fuel : Nat) (h : PyHeap α) (racc c1 c2 : Nat) (h' : PyHeap α) (c1' c2' : Nat),
      mergedLoopH cmp xs ys fuel h racc c1 c2 = some (h', c1', c2') →
      h'.size = h.size ∧ ∀ s, s ≠ racc → h'.read s = h.read s := by
  intro fuel
  induction fuel with
  | zero =>
    intro h racc c1 c2 h' c1' c2' hl
    rw [mergedLoopH] at hl
    split at hl
    · exact absurd hl (by simp)
    · cases hl
      exact ⟨rfl, fun s _ => rfl⟩
  | succ fuel ih =>
    intro h racc c1 c2 h' c1' c2' hl
    rw [mergedLoopH] at hl
    split at hl
    · simp only [] at hl
      split_ifs at hl with h1 h2 h3
      · obtain ⟨hsz, hrd⟩ := ih _ racc _ _ _ _ _ hl
        refine ⟨by rw [hsz, PyHeap.size_write], fun s hs => ?_⟩
        rw [hrd s hs, PyHeap.read_write_ne _ _ hs]
      · obtain ⟨hsz, hrd⟩ := ih _ racc _ _ _ _ _ hl
        refine ⟨by rw [hsz, PyHeap.size_write], fun s hs => ?_⟩
        rw [hrd s hs, PyHeap.read_write_ne _ _ hs]
      · obtain ⟨hsz, hrd⟩ := ih _ racc _ _ _ _ _ hl
        refine ⟨by rw [hsz, PyHeap.size_write, PyHeap.size_write], fun s hs => ?_⟩
        rw [hrd s hs, PyHeap.read_write_ne _ _ hs, PyHeap.read_write_ne _ _ hs]
    · cases hl
      exact ⟨rfl, fun s _ => rfl⟩

/-- Heap-level embedding of `_merged`: read the two argument objects, allocate
the empty `new_list`, run the loop (which appends to `new_list` only), then
evaluate `new_list + xs[counter1:] + ys[counter2:]`, which allocates a fresh
result object; return its reference. -/
def mergedH {α : Type} [Inhabited α] (cmp : α → α → Int) (h : PyHeap α)
    (rx ry : Nat) : Option (PyHeap α × Nat) :=
  let xs := h.read rx
  let ys := h.read ry
  let al := h.alloc []
  match mergedLoopH cmp xs ys (xs.length + ys.length) al.1 al.2 0 0 with
  | none => none
  | some (h2, c1, c2) =>
    let al2 := h2.alloc (h2.read al.2 ++ xs.drop c1 ++ ys.drop c2)
    some (al2.1, al2.2)

/-- `_merged` does not mutate any pre-existing object and returns a fresh
object. -/
theorem mergedH_frame {α : Type} [Inhabited α] (cmp : α → α → Int)
    (h : PyHeap α) (rx ry : Nat) (h' : PyHeap α) (r' : Nat)
    (hm : mergedH cmp h rx ry = some (h', r')) :
    h'.size = h.size + 2 ∧ h.size ≤ r' ∧ ∀ s, s < h.size → h'.read s = h.read s := by
  unfold mergedH at hm
  simp only [] at hm
  set xs := h.read rx with hxs
  set ys := h.read ry with hys
  cases hloop : mergedLoopH cmp xs ys (xs.length + ys.length) (h.alloc []).1
      (h.alloc []).2 0 0 with
  | none => rw [hloop] at hm; exact absurd hm (by simp)
  | some res =>
    obtain ⟨h2, c1, c2⟩ := res
    rw [hloop] at hm
    simp only [Option.some.injEq, Prod.mk.injEq] at hm
    obtain ⟨hm1, hm2⟩ := hm
    obtain ⟨hsz, hrd⟩ := mergedLoopH_frame cmp xs ys _ _ _ _ _ _ _ _ hloop
    subst hm1
    constructor
    · rw [PyHeap.size_alloc, hsz, PyHeap.size_alloc]
    constructor
    · rw [← hm2]
      show h.size ≤ (h2.alloc _).2
      rw [PyHeap.alloc_ref, hsz, PyHeap.size_alloc]
      omega
    · intro s hs
      have hs1 : s < (h.alloc []).1.size := by rw [PyHeap.size_alloc]; omega
      have hs2 : s < h2.size := by rw [hsz]; exact hs1
      rw [PyHeap.read_alloc_lt _ _ hs2,
        hrd s (by rw [PyHeap.alloc_ref]; omega),
        PyHeap.read_alloc_lt _ _ hs]

/-- Heap-level embedding of `merge_sorted`: `xs2 = copy.deepcopy(xs)`
allocates a fresh object with the same value; for length ≤ 1 the copy is
returned; otherwise the two slices allocate fresh objects, the recursive
calls sort them, and `_merged` produces the result.  The input object is
only ever read. -/
def merge_sortedH {α : Type} [Inhabited α] (cmp : α → α → Int) :
    Nat → PyHeap α → Nat → Option (PyHeap α × Nat)
  | fuel, h, r =>
    let xs := h.read r
    let al := h.alloc xs
    if xs.length ≤ 1 then some (al.1, al.2)
    else
      match fuel with
      | 0 => none
      | fuel + 1 =>
        let mid := xs.length / 2
        let alL := al.1.alloc (xs.take mid)
        let alR := alL.1.alloc (xs.drop mid)
        match merge_sortedH cmp fuel alR.1 alL.2 with
        | none => none
        | some (h4, rl) =>
          match merge_sortedH cmp fuel h4 alR.2 with
          | none => none
          | some (h5, rr) => mergedH cmp h5 rl rr

/-- `merge_sorted` never writes to a pre-existing object and returns a fresh
object: the heap only grows, every old reference keeps its contents, and the
returned reference is new. -/
theorem merge_sortedH_frame {α : Type} [Inhabited α] (cmp : α → α → Int) :
    ∀ (fuel : Nat) (h : PyHeap α) (r : Nat) (h' : PyHeap α) (r' : Nat),
      merge_sortedH cmp fuel h r = some (h', r') →
      h.size ≤ h'.size ∧ h.size ≤ r' ∧ ∀ s, s < h.size → h'.read s = h.read s := by
  intro fuel
  induction fuel with
  | zero =>
    intro h r h' r' hm
    rw [merge_sortedH] at hm
    split at hm
    · cases hm
      refine ⟨by rw [PyHeap.size_alloc]; omega, by rw [PyHeap.alloc_ref], ?_⟩
      intro s hs
      exact PyHeap.read_alloc_lt h _ hs
    · exact absurd hm (by simp)
  | succ fuel ih =>
    intro h r h' r' hm
    rw [merge_sortedH] at hm
    simp only [] at hm
    split at hm
    · cases hm
      refine ⟨by rw [PyHeap.size_alloc]; omega, by rw [PyHeap.alloc_ref], ?_⟩
      intro s hs
      exact PyHeap.read_alloc_lt h _ hs
    · split at hm
      · exact absurd hm (by simp)
      · rename_i h4 rl hrec1
        split at hm
        · exact absurd hm (by simp)
        · rename_i h5 rr hrec2
          obtain ⟨s1, k1, f1⟩ := ih _ _ _ _ hrec1
          obtain ⟨s2, k2, f2⟩ := ih _ _ _ _ hrec2
          obtain ⟨s3, k3, f3⟩ := mergedH_frame cmp h5 rl rr h' r' hm
          have hsz : (((h.alloc (h.read r)).1.alloc
              ((h.read r).take ((h.read r).length / 2))).1.alloc
              ((h.read r).drop ((h.read r).length / 2))).1.size = h.size + 3 := by
            rw [PyHeap.size_alloc, PyHeap.size_alloc, PyHeap.size_alloc]
          rw [hsz] at s1 k1 f1
          refine ⟨by omega, by omega, ?_⟩
          intro s hs
          rw [f3 s (by omega), f2 s (by omega), f1 s (by omega),
            PyHeap.read_alloc_lt _ _ (by rw [PyHeap.size_alloc, PyHeap.size_alloc]; omega),
            PyHeap.read_alloc_lt _ _ (by rw [PyHeap.size_alloc]; omega),
            PyHeap.read_alloc_lt _ _ (by omega)]

/-- Heap-level embedding of `quick_sorted`: deep copy, base case returns the
copy; otherwise the three bucket lists are freshly allocated and filled by a
single read-only scan of the copy (modelled as one allocation each holding
the filtered value), the recursive calls sort the less/greater buckets, and
the final concatenation allocates the result object. -/
def quick_sortedH {α : Type} [Inhabited α] (cmp : α → α → Int)
    (pick : List α → α) : Nat → PyHeap α → Nat → Option (PyHeap α × Nat)
  | fuel, h, r =>
    let xs := h.read r
    let al := h.alloc xs
    if xs.length ≤ 1 then some (al.1, al.2)
    else
      match fuel with
      | 0 => none
      | fuel + 1 =>
        let pivot := pick xs
        let alLess := al.1.alloc (xs.filter (fun z => cmp z pivot == -1))
        let alGreater := alLess.1.alloc (xs.filter (fun z => cmp z pivot == 1))
        let alEqual := alGreater.1.alloc (xs.filter (fun z => cmp z pivot == 0))
        match quick_sortedH cmp pick fuel alEqual.1 alLess.2 with
        | none => none
        | some (h5, rl) =>
          match quick_sortedH cmp pick fuel h5 alGreater.2 with
          | none => none
          | some (h6, rg) =>
            let alRes := h6.alloc (h6.read rl ++ h6.read alEqual.2 ++ h6.read rg)
            some (alRes.1, alRes.2)

/-- `quick_sorted` never writes to a pre-existing object and returns a fresh
object. -/
theorem quick_sortedH_frame {α : Type} [Inhabited α] (cmp : α → α → Int)
    (pick : List α → α) :
    ∀ (fuel : Nat) (h : PyHeap α) (r : Nat) (h' : PyHeap α) (r' : Nat),
      quick_sortedH cmp pick fuel h r = some (h', r') →
      h.size ≤ h'.size ∧ h.size ≤ r' ∧ ∀ s, s < h.size → h'.read s = h.read s := by
  intro fuel
  induction fuel with
  | zero =>
    intro h r h' r' hm
    rw [quick_sortedH] at hm
    split at hm
    · cases hm
      refine ⟨by rw [PyHeap.size_alloc]; omega, by rw [PyHeap.alloc_ref], ?_⟩
      intro s hs
      exact PyHeap.read_alloc_lt h _ hs
    · exact absurd hm (by simp)
  | succ fuel ih =>
    intro h r h' r' hm
    rw [quick_sortedH] at hm
    simp only [] at hm
    split at hm
    · cases hm
      refine ⟨by rw [PyHeap.size_alloc]; omega, by rw [PyHeap.alloc_ref], ?_⟩
      intro s hs
      exact PyHeap.read_alloc_lt h _ hs
    · split at hm
      · exact absurd hm (by simp)
      · rename_i h5 rl hrec1
        split at hm
        · exact absurd hm (by simp)
        · rename_i h6 rg hrec2
          simp only [Option.some.injEq, Prod.mk.injEq] at hm
          obtain ⟨hm1, hm2⟩ := hm
          obtain ⟨s1, k1, f1⟩ := ih _ _ _ _ hrec1
          obtain ⟨s2, k2, f2⟩ := ih _ _ _ _ hrec2
          have hsz : ((((h.alloc (h.read r)).1.alloc
              ((h.read r).filter (fun z => cmp z (pick (h.read r)) == -1))).1.alloc
              ((h.read r).filter (fun z => cmp z (pick (h.read r)) == 1))).1.alloc
              ((h.read r).filter (fun z => cmp z (pick (h.read r)) == 0))).1.size
              = h.size + 4 := by
            rw [PyHeap.size_alloc, PyHeap.size_alloc, PyHeap.size_alloc, PyHeap.size_alloc]
          rw [hsz] at s1 k1 f1
          subst hm1
          refine ⟨by rw [PyHeap.size_alloc]; omega, ?_, ?_⟩
          · rw [← hm2, PyHeap.alloc_ref]
            omega
          · intro s hs
            rw [PyHeap.read_alloc_lt _ _ (by omega), f2 s (by omega), f1 s (by omega),
              PyHeap.read_alloc_lt _ _ (by
                rw [PyHeap.size_alloc, PyHeap.size_alloc, PyHeap.size_alloc]; omega),
              PyHeap.read_alloc_lt _ _ (by rw [PyHeap.size_alloc, PyHeap.size_alloc]; omega),
              PyHeap.read_alloc_lt _ _ (by rw [PyHeap.size_alloc]; omega),
              PyHeap.read_alloc_lt _ _ (by omega)]

/-- Heap-level embedding of the in-place `_quicksort`: the swaps performed by
`_partition` write back into the argument object `r` itself; the function
returns `array`, i.e. the very same reference it was given. -/
def _quicksortH {α : Type} [Inhabited α] (cmp : α → α → Int) :
    Nat → PyHeap α → Nat → Int → Int → PyHeap α × Nat
  | 0, h, r, _, _ => (h, r)
  | fuel + 1, h, r, lo, hi =>
    if lo < hi then
      let pr := _partition cmp (h.read r) lo hi
      let h1 := h.write r pr.1
      let h2 := (_quicksortH cmp fuel h1 r lo (pr.2 - 1)).1
      _quicksortH cmp fuel h2 r (pr.2 + 1) hi
    else (h, r)

/-- Heap-level embedding of `quick_sort`. -/
def quick_sortH {α : Type} [Inhabited α] (cmp : α → α → Int) (h : PyHeap α)
    (r : Nat) : PyHeap α × Nat :=
  _quicksortH cmp (h.read r).length h r 0 (((h.read r).length : Int) - 1)

/-- `_quicksort` returns exactly the reference it was given (the Python
function returns `array` itself, not a copy). -/
theorem _quicksortH_snd {α : Type} [Inhabited α] (cmp : α → α → Int) :
    ∀ (fuel : Nat) (h : PyHeap α) (r : Nat) (lo hi : Int),
      (_quicksortH cmp fuel h r lo hi).2 = r := by
  intro fuel
  induction fuel with
  | zero => intro h r lo hi; rfl
  | succ fuel ih =>
    intro h r lo hi
    show (if lo < hi then _ else (h, r)).2 = r
    split
    · exact ih _ r _ _
    · rfl

theorem _quicksortH_succ {α : Type} [Inhabited α] (cmp : α → α → Int)
    (fuel : Nat) (h : PyHeap α) (r : Nat) (lo hi : Int) :
    _quicksortH cmp (fuel + 1) h r lo hi =
      (if lo < hi then
        _quicksortH cmp fuel
          ((_quicksortH cmp fuel (h.write r (_partition cmp (h.read r) lo hi).1) r lo
            ((_partition cmp (h.read r) lo hi).2 - 1)).1) r
          ((_partition cmp (h.read r) lo hi).2 + 1) hi
      else (h, r)) := rfl

/-- The heap-level in-place quicksort writes only to its argument object,
and leaves in it exactly the value computed by the pure state-passing model
`_quicksortA`. -/
theorem _quicksortH_track {α : Type} [Inhabited α] (cmp : α → α → Int) :
    ∀ (fuel : Nat) (h : PyHeap α) (r : Nat) (lo hi : Int), r < h.size →
      (_quicksortH cmp fuel h r lo hi).1.read r = _quicksortA cmp fuel (h.read r) lo hi ∧
      (_quicksortH cmp fuel h r lo hi).1.size = h.size ∧
      ∀ s, s ≠ r → (_quicksortH cmp fuel h r lo hi).1.read s = h.read s := by
  intro fuel
  induction fuel with
  | zero => intro h r lo hi _; exact ⟨rfl, rfl, fun _ _ => rfl⟩
  | succ fuel ih =>
    intro h r lo hi hr
    rw [_quicksortA_succ, _quicksortH_succ]
    by_cases hlh : lo < hi
    · rw [if_pos hlh, if_pos hlh]
      set pr := _partition cmp (h.read r) lo hi with hpr
      set h1 := h.write r pr.1 with hh1
      have hr1 : r < h1.size := by rw [hh1, PyHeap.size_write]; exact hr
      have hread1 : h1.read r = pr.1 := PyHeap.read_write_self h pr.1 hr
      obtain ⟨t1, s1, f1⟩ := ih h1 r lo (pr.2 - 1) hr1
      set h2 := (_quicksortH cmp fuel h1 r lo (pr.2 - 1)).1 with hh2
      have hr2 : r < h2.size := by rw [s1]; exact hr1
      obtain ⟨t2, s2, f2⟩ := ih h2 r (pr.2 + 1) hi hr2
      refine ⟨?_, ?_, ?_⟩
      · rw [t2, t1, hread1]
      · rw [s2, s1, hh1, PyHeap.size_write]
      · intro s hs
        rw [f2 s hs, f1 s hs, hh1, PyHeap.read_write_ne h pr.1 hs]
    · rw [if_neg hlh, if_neg hlh]
      exact ⟨rfl, rfl, fun _ _ => rfl⟩

/-- `quick_sort` at heap level: it returns the same object it was given,
mutates only that object, and leaves in it the value computed by the pure
model `quick_sort`. -/
theorem quick_sortH_spec {α : Type} [Inhabited α] (cmp : α → α → Int)
    (h : PyHeap α) (r : Nat) (hr : r < h.size) :
    (quick_sortH cmp h r).2 = r ∧
    (quick_sortH cmp h r).1.read r = quick_sort cmp (h.read r) ∧
    ∀ s, s ≠ r → (quick_sortH cmp h r).1.read s = h.read s := by
  obtain ⟨t, _, f⟩ := _quicksortH_track cmp (h.read r).length h r 0
    (((h.read r).length : Int) - 1) hr
  exact ⟨_quicksortH_snd cmp _ h r _ _, t, f⟩

/-!
## Auxiliary comparators and oracles for the claims' concrete scenarios
-/

/-- The spec's stability-example comparator: compares `(Int, String)` pairs
by first component only (so differently-labelled pairs with equal first
component are comparator-equivalent but distinguishable values). -/
def cmp_fst (p q : Int × String) : Int := cmp_standard p.1 q.1

theorem cmp_fst_contract : CmpContract cmp_fst :=
  CmpContract.comap cmp_standard_contract Prod.fst

/-- A second concrete valid pivot oracle (always picks the last element),
used to exercise pivot-independence at concrete inputs. -/
def pickLast {α : Type} [Inhabited α] (l : List α) : α := l.getLastD default

theorem pickLast_valid {α : Type} [Inhabited α] : ValidPick (@pickLast α _) := by
  intro l hl
  match l with
  | [] => exact absurd rfl hl
  | x :: xs =>
    show (x :: xs).getLastD default ∈ x :: xs
    rw [List.getLastD_eq_getLast?, List.getLast?_eq_getLast (x :: xs) (by simp)]
    simp [List.getLast_mem]

/-- Modelled from the spec: claim C6 states that the left half "receives the
extra element when the length is odd (i.e. the left half has ⌈n/2⌉
elements)".  This definition follows the claim's words — it differs from the
source embedding `merge_sorted` only in using `mid = (n + 1) / 2` instead of
the source's `mid = n / 2` — and exists solely to be compared against
`merge_sorted`. -/
def merge_sortedSpecA {α : Type} (cmp : α → α → Int) (fuel : Nat) (xs : List α) :
    Option (List α) :=
  match xs with
  | [] => some []
  | [x] => some [x]
  | x :: y :: rest =>
    match fuel with
    | 0 => none
    | fuel + 1 =>
      let xs2 := x :: y :: rest
      let mid := (xs2.length + 1) / 2
      (merge_sortedSpecA cmp fuel (xs2.take mid)).bind fun lmerge =>
        (merge_sortedSpecA cmp fuel (xs2.drop mid)).bind fun rmerge =>
          merged cmp lmerge rmerge

/-- The ceiling-split merge sort described by claim C6's words. -/
def merge_sortedSpec {α : Type} (cmp : α → α → Int) (xs : List α) :
    Option (List α) :=
  merge_sortedSpecA cmp xs.length xs

/-!
## Claim theorems
-/

/-- Claim C1: the claim states that `quick_sort` sorts every list under the
comparator contract, and in particular `quick_sort([5,3,1,4,2],
cmp_standard)` yields `[1,2,3,4,5]`.  The code violates this: because
`_partition`'s pivot-placement swap and `return` are indented inside the scan
loop, the partition returns after its first iteration, and
`quick_sort cmp_standard [5,3,1,4,2]` leaves the list as `[2,3,5,1,4]`,
which is not `[1,2,3,4,5]` and is not sorted. -/
theorem claim_C1 :
    quick_sort cmp_standard [5, 3, 1, 4, 2] = [2, 3, 5, 1, 4] ∧
    ([2, 3, 5, 1, 4] : List Int) ≠ [1, 2, 3, 4, 5] ∧
    ¬ sortedUnder cmp_standard (quick_sort cmp_standard [5, 3, 1, 4, 2]) := by
  refine ⟨rfl, by decide, ?_⟩
  rw [show quick_sort cmp_standard [5, 3, 1, 4, 2] = [2, 3, 5, 1, 4] from rfl]
  decide

/-- Claim C2: for every comparator answering in `{-1, 0, 1}`, the multiset of
elements of the output of `merge_sorted`, `quick_sorted` (whenever it
returns) and `quick_sort` (the mutated/returned list) equals the multiset of
the input — stated as list permutation, which is multiset equality.  The
`quick_sort` part holds unconditionally since it only swaps elements. -/
theorem claim_C2 {α : Type} [Inhabited α] (cmp : α → α → Int) (pick : List α → α)
    (xs : List α) (hr : ∀ a b, cmp a b = -1 ∨ cmp a b = 0 ∨ cmp a b = 1) :
    (∃ l, merge_sorted cmp xs = some l ∧ l.Perm xs) ∧
    (∀ l, quick_sorted cmp pick xs = some l → l.Perm xs) ∧
    (quick_sort cmp xs).Perm xs := by
  refine ⟨?_, ?_, quick_sort_perm cmp xs⟩
  · obtain ⟨l, hl⟩ := merge_sorted_isSome_of_range hr xs
    exact ⟨l, hl, merge_sorted_perm cmp xs l hl⟩
  · intro l hl
    exact quick_sortedA_perm hr pick xs.length xs l hl

/-- Witness for C2 at `cmp_standard`, `pickHead`, `[3, 1, 2]`. -/
theorem claim_C2_witness :
    (∃ l, merge_sorted cmp_standard [3, 1, 2] = some l ∧ l.Perm [3, 1, 2]) ∧
    (∀ l, quick_sorted cmp_standard pickHead [3, 1, 2] = some l → l.Perm [3, 1, 2]) ∧
    (quick_sort cmp_standard [3, 1, 2]).Perm [3, 1, 2] :=
  claim_C2 cmp_standard pickHead [3, 1, 2] cmp_standard_contract.range

/-- Claim C3: under the three-way total-preorder contract, the outputs of
`merge_sorted` and `quick_sorted` are sorted — no adjacent pair `(x, y)` with
`x` before `y` has `cmp x y = 1` — and the concrete scenario
`merge_sorted [5,3,1,4,2] cmp_standard = [1,2,3,4,5]` holds. -/
theorem claim_C3 {α : Type} (cmp : α → α → Int) (pick : List α → α) (xs : List α)
    (hc : CmpContract cmp) (hp : ValidPick pick) :
    (∃ l, merge_sorted cmp xs = some l ∧ sortedUnder cmp l) ∧
    (∃ l, quick_sorted cmp pick xs = some l ∧ sortedUnder cmp l) ∧
    merge_sorted cmp_standard ([5, 3, 1, 4, 2] : List Int) = some [1, 2, 3, 4, 5] := by
  refine ⟨?_, ?_, rfl⟩
  · obtain ⟨l, hl⟩ := merge_sorted_isSome_of_range hc.range xs
    exact ⟨l, hl, (sortedUnder_iff_pairwise hc l).mpr (merge_sorted_pairwise hc xs l hl)⟩
  · obtain ⟨l, hl⟩ := quick_sortedA_isSome hc hp xs.length xs (by omega)
    exact ⟨l, hl, (sortedUnder_iff_pairwise hc l).mpr
      (quick_sortedA_pairwise hc xs.length xs l hl)⟩

/-- Witness for C3 at `cmp_standard`, `pickHead`, `[5, 3, 1, 4, 2]`. -/
theorem claim_C3_witness :
    (∃ l, merge_sorted cmp_standard ([5, 3, 1, 4, 2] : List Int) = some l ∧
      sortedUnder cmp_standard l) ∧
    (∃ l, quick_sorted cmp_standard pickHead ([5, 3, 1, 4, 2] : List Int) = some l ∧
      sortedUnder cmp_standard l) ∧
    merge_sorted cmp_standard ([5, 3, 1, 4, 2] : List Int) = some [1, 2, 3, 4, 5] :=
  claim_C3 cmp_standard pickHead [5, 3, 1, 4, 2] cmp_standard_contract pickHead_valid

/-- Claim C4: the `_merged` loop emits the left element and advances the left
cursor on "less", the right element on "greater", the left element
immediately followed by the right element (advancing both cursors) on
"equal"; an exhausted input makes the other input's remainder be appended
unchanged; whenever the merge returns, its length is the sum of the input
lengths; and `_merged [1,3,5] [2,4,6] cmp_standard = [1,2,3,4,5,6]`. -/
theorem claim_C4 {α : Type} (cmp : α → α → Int) :
    (∀ (x y : α) (xs ys : List α), cmp x y = -1 →
      merged cmp (x :: xs) (y :: ys) = (merged cmp xs (y :: ys)).map (fun l => x :: l)) ∧
    (∀ (x y : α) (xs ys : List α), cmp x y = 1 →
      merged cmp (x :: xs) (y :: ys) = (merged cmp (x :: xs) ys).map (fun l => y :: l)) ∧
    (∀ (x y : α) (xs ys : List α), cmp x y = 0 →
      merged cmp (x :: xs) (y :: ys) = (merged cmp xs ys).map (fun l => x :: y :: l)) ∧
    (∀ ys : List α, merged cmp [] ys = some ys) ∧
    (∀ (x : α) (xs : List α), merged cmp (x :: xs) [] = some (x :: xs)) ∧
    (∀ (xs ys l : List α), merged cmp xs ys = some l →
      l.length = xs.length + ys.length) ∧
    merged cmp_standard ([1, 3, 5] : List Int) [2, 4, 6] = some [1, 2, 3, 4, 5, 6] :=
  ⟨merged_cons_lt cmp, merged_cons_gt cmp, merged_cons_eq cmp,
    merged_nil_left cmp, merged_nil_right cmp, merged_length cmp, rfl⟩

/-- Witness for C4: each branch equation exercised at a concrete input under
`cmp_standard`, plus the length property at a concrete merge. -/
theorem claim_C4_witness :
    merged cmp_standard ([1] : List Int) [2] =
      (merged cmp_standard [] [2]).map (fun l => 1 :: l) ∧
    merged cmp_standard ([3] : List Int) [2] =
      (merged cmp_standard [3] []).map (fun l => 2 :: l) ∧
    merged cmp_standard ([4] : List Int) [4] =
      (merged cmp_standard [] []).map (fun l => 4 :: 4 :: l) ∧
    ([1, 2, 3] : List Int).length = ([1, 3] : List Int).length + ([2] : List Int).length :=
  ⟨(claim_C4 cmp_standard).1 1 2 [] [] (by decide),
    (claim_C4 cmp_standard).2.1 3 2 [] [] (by decide),
    (claim_C4 cmp_standard).2.2.1 4 4 [] [] (by decide),
    (claim_C4 cmp_standard).2.2.2.2.2.1 [1, 3] [2] [1, 2, 3] (by decide)⟩

/-- Counterexample to claim C5 (stability of `merge_sorted`): the four
pairwise-equivalent elements `(1,a) (1,b) (1,c) (1,d)` under the
first-component comparator come out as `(1,a) (1,c) (1,b) (1,d)`: the
equivalent elements `(1,b)` and `(1,c)` appear in the output in the opposite
of their input order, because the merge's tie rule emits left-right pairs
and advances both cursors, interleaving the two halves. -/
theorem claim_C5_counterexample :
    merge_sorted cmp_fst [(1, "a"), (1, "b"), (1, "c"), (1, "d")] =
      some [(1, "a"), (1, "c"), (1, "b"), (1, "d")] ∧
    cmp_fst (1, "b") (1, "c") = 0 ∧
    ([(1, "a"), (1, "c"), (1, "b"), (1, "d")] : List (Int × String)) ≠
      [(1, "a"), (1, "b"), (1, "c"), (1, "d")] := by
  refine ⟨rfl, rfl, ?_⟩
  decide

/-- Amended claim C5: the merge's tie rule emits the left element immediately
before the right element and advances both cursors, and the spec's
two-element scenario holds (`[(1,a),(1,b)]` sorts to itself); full stability
fails for larger equivalence classes (see the counterexample). -/
theorem claim_C5_amended {α : Type} (cmp : α → α → Int) :
    (∀ (x y : α) (xs ys : List α), cmp x y = 0 →
      merged cmp (x :: xs) (y :: ys) = (merged cmp xs ys).map (fun l => x :: y :: l)) ∧
    merge_sorted cmp_fst [(1, "a"), (1, "b")] = some [(1, "a"), (1, "b")] :=
  ⟨merged_cons_eq cmp, rfl⟩

/-- Witness for the amended C5 at a concrete tie. -/
theorem claim_C5_amended_witness :
    merged cmp_standard ([4] : List Int) [4] =
      (merged cmp_standard [] []).map (fun l => 4 :: 4 :: l) ∧
    merge_sorted cmp_fst [(1, "a"), (1, "b")] = some [(1, "a"), (1, "b")] :=
  ⟨(claim_C5_amended (@cmp_standard Int _)).1 4 4 [] [] (by decide),
    (claim_C5_amended (@cmp_standard Int _)).2⟩

/-- Counterexample to claim C6: `merge_sorted` splits `[:mid]`/`[mid:]` with
`mid = len // 2`, so for a 3-element list the left half has 1 element, not
the claimed `⌈3/2⌉ = 2`; the ceiling-split variant described by the claim
(`merge_sortedSpec`) is observably different from the code on
pairwise-equivalent elements. -/
theorem claim_C6_counterexample :
    merge_sorted cmp_fst [(1, "a"), (1, "b"), (1, "c")] =
      some [(1, "a"), (1, "b"), (1, "c")] ∧
    merge_sortedSpec cmp_fst [(1, "a"), (1, "b"), (1, "c")] =
      some [(1, "a"), (1, "c"), (1, "b")] ∧
    merge_sorted cmp_fst [(1, "a"), (1, "b"), (1, "c")] ≠
      merge_sortedSpec cmp_fst [(1, "a"), (1, "b"), (1, "c")] ∧
    (([(1, "a"), (1, "b"), (1, "c")] : List (Int × String)).take
      (([(1, "a"), (1, "b"), (1, "c")] : List (Int × String)).length / 2)).length = 1 ∧
    (1 : Nat) ≠ (3 + 1) / 2 := by
  refine ⟨rfl, rfl, ?_, rfl, by decide⟩
  rw [show merge_sorted cmp_fst [(1, "a"), (1, "b"), (1, "c")] =
    some [(1, "a"), (1, "b"), (1, "c")] from rfl]
  rw [show merge_sortedSpec cmp_fst [(1, "a"), (1, "b"), (1, "c")] =
    some [(1, "a"), (1, "c"), (1, "b")] from rfl]
  decide

/-- Amended claim C6: for every list of length ≥ 2, `merge_sorted` splits at
`mid = ⌊n/2⌋`; the left half is the first `⌊n/2⌋` elements and the RIGHT
half receives the extra element when the length is odd; each half is sorted
recursively and the results are merged. -/
theorem claim_C6_amended {α : Type} (cmp : α → α → Int) (x y : α) (rest : List α) :
    merge_sorted cmp (x :: y :: rest) =
      (merge_sorted cmp ((x :: y :: rest).take ((x :: y :: rest).length / 2))).bind
        (fun lmerge =>
          (merge_sorted cmp
              ((x :: y :: rest).drop ((x :: y :: rest).length / 2))).bind
            (fun rmerge => merged cmp lmerge rmerge)) ∧
    ((x :: y :: rest).take ((x :: y :: rest).length / 2)).length =
      (x :: y :: rest).length / 2 ∧
    ((x :: y :: rest).drop ((x :: y :: rest).length / 2)).length =
      (x :: y :: rest).length - (x :: y :: rest).length / 2 := by
  refine ⟨merge_sorted_cons₂ cmp x y rest, ?_, ?_⟩
  · rw [List.length_take]
    simp
    omega
  · rw [List.length_drop]

/-- Witness for the amended C6 on the concrete 5-element list. -/
theorem claim_C6_amended_witness :
    merge_sorted cmp_standard (5 :: 3 :: ([1, 4, 2] : List Int)) =
      (merge_sorted cmp_standard ((5 :: 3 :: ([1, 4, 2] : List Int)).take
        ((5 :: 3 :: ([1, 4, 2] : List Int)).length / 2))).bind
        (fun lmerge => (merge_sorted cmp_standard ((5 :: 3 :: ([1, 4, 2] : List Int)).drop
          ((5 :: 3 :: ([1, 4, 2] : List Int)).length / 2))).bind
          (fun rmerge => merged cmp_standard lmerge rmerge)) ∧
    ((5 :: 3 :: ([1, 4, 2] : List Int)).take
      ((5 :: 3 :: ([1, 4, 2] : List Int)).length / 2)).length =
      (5 :: 3 :: ([1, 4, 2] : List Int)).length / 2 ∧
    ((5 :: 3 :: ([1, 4, 2] : List Int)).drop
      ((5 :: 3 :: ([1, 4, 2] : List Int)).length / 2)).length =
      (5 :: 3 :: ([1, 4, 2] : List Int)).length -
        (5 :: 3 :: ([1, 4, 2] : List Int)).length / 2 :=
  claim_C6_amended cmp_standard 5 3 [1, 4, 2]

/-- Counterexample to claim C7 (idempotence on sorted inputs for all three
algorithms): the list `[(1,a),(1,b),(1,c),(1,d)]` is sorted under the
first-component comparator, yet `merge_sorted` returns a different sequence;
and the sorted list `[1,2,3]` is mutated by `quick_sort` into the unsorted
`[1,3,2]`. -/
theorem claim_C7_counterexample :
    sortedUnder cmp_fst [(1, "a"), (1, "b"), (1, "c"), (1, "d")] ∧
    merge_sorted cmp_fst [(1, "a"), (1, "b"), (1, "c"), (1, "d")] =
      some [(1, "a"), (1, "c"), (1, "b"), (1, "d")] ∧
    ([(1, "a"), (1, "c"), (1, "b"), (1, "d")] : List (Int × String)) ≠
      [(1, "a"), (1, "b"), (1, "c"), (1, "d")] ∧
    sortedUnder cmp_standard [1, 2, 3] ∧
    quick_sort cmp_standard [1, 2, 3] = [1, 3, 2] := by
  refine ⟨by decide, rfl, by decide, by decide, rfl⟩

/-- Amended claim C7: on an input already sorted under a contract-satisfying
comparator, `quick_sorted` returns a sequence equal element-for-element to
the input; `merge_sorted` returns a sorted permutation of the input (but may
reorder comparator-equivalent elements); `quick_sort` preserves neither
(partition defect), e.g. the sorted `[1,2,3]` becomes `[1,3,2]`. -/
theorem claim_C7_amended {α : Type} (cmp : α → α → Int) (pick : List α → α)
    (xs : List α) (hc : CmpContract cmp) (hp : ValidPick pick)
    (hs : sortedUnder cmp xs) :
    quick_sorted cmp pick xs = some xs ∧
    (∃ l, merge_sorted cmp xs = some l ∧ l.Perm xs ∧ sortedUnder cmp l) ∧
    quick_sort cmp_standard ([1, 2, 3] : List Int) = [1, 3, 2] := by
  refine ⟨quick_sorted_of_pairwise hc hp xs ((sortedUnder_iff_pairwise hc xs).mp hs),
    ?_, rfl⟩
  obtain ⟨l, hl⟩ := merge_sorted_isSome_of_range hc.range xs
  exact ⟨l, hl, merge_sorted_perm cmp xs l hl,
    (sortedUnder_iff_pairwise hc l).mpr (merge_sorted_pairwise hc xs l hl)⟩

/-- Witness for the amended C7 at `cmp_standard`, `pickHead`, sorted input
`[1, 2, 3]`. -/
theorem claim_C7_amended_witness :
    quick_sorted cmp_standard pickHead ([1, 2, 3] : List Int) = some [1, 2, 3] ∧
    (∃ l, merge_sorted cmp_standard ([1, 2, 3] : List Int) = some l ∧ l.Perm [1, 2, 3] ∧
      sortedUnder cmp_standard l) ∧
    quick_sort cmp_standard ([1, 2, 3] : List Int) = [1, 3, 2] :=
  claim_C7_amended cmp_standard pickHead [1, 2, 3] cmp_standard_contract
    pickHead_valid (by decide)

/-- Claim C8, stated on the heap model: `merge_sorted` and `quick_sorted`
leave the contents of the argument object unchanged and return a reference
to a different (fresh) object, while `quick_sort` returns the very reference
it was given, mutates only that object, and leaves in it the sorted... — the
value computed by the (buggy) in-place algorithm, i.e. `quick_sort` of the
original contents. -/
theorem claim_C8 {α : Type} [Inhabited α] (cmp : α → α → Int) (pick : List α → α)
    (h : PyHeap α) (r : Nat) (hr : r < h.size) :
    (∀ h' r', merge_sortedH cmp (h.read r).length h r = some (h', r') →
      h'.read r = h.read r ∧ r' ≠ r) ∧
    (∀ h' r', quick_sortedH cmp pick (h.read r).length h r = some (h', r') →
      h'.read r = h.read r ∧ r' ≠ r) ∧
    (quick_sortH cmp h r).2 = r ∧
    (quick_sortH cmp h r).1.read r = quick_sort cmp (h.read r) ∧
    (∀ s, s ≠ r → (quick_sortH cmp h r).1.read s = h.read s) := by
  obtain ⟨e1, e2, e3⟩ := quick_sortH_spec cmp h r hr
  refine ⟨?_, ?_, e1, e2, e3⟩
  · intro h' r' hm
    obtain ⟨_, k, f⟩ := merge_sortedH_frame cmp (h.read r).length h r h' r' hm
    exact ⟨f r hr, by omega⟩
  · intro h' r' hm
    obtain ⟨_, k, f⟩ := quick_sortedH_frame cmp pick (h.read r).length h r h' r' hm
    exact ⟨f r hr, by omega⟩

/-- Witness for C8 on the one-object heap holding `[5, 3, 1, 4, 2]`. -/
theorem claim_C8_witness :
    (∀ h' r', merge_sortedH cmp_standard
        ((PyHeap.mk [[5, 3, 1, 4, 2]]).read 0).length (PyHeap.mk [[5, 3, 1, 4, 2]]) 0 =
        some (h', r') → h'.read 0 = (PyHeap.mk [[5, 3, 1, 4, 2]]).read 0 ∧ r' ≠ 0) ∧
    (∀ h' r', quick_sortedH cmp_standard pickHead
        ((PyHeap.mk [[5, 3, 1, 4, 2]]).read 0).length (PyHeap.mk [[5, 3, 1, 4, 2]]) 0 =
        some (h', r') → h'.read 0 = (PyHeap.mk [[5, 3, 1, 4, 2]]).read 0 ∧ r' ≠ 0) ∧
    (quick_sortH cmp_standard (PyHeap.mk [[5, 3, 1, 4, 2]]) 0).2 = 0 ∧
    (quick_sortH cmp_standard (PyHeap.mk [[5, 3, 1, 4, 2]]) 0).1.read 0 =
      quick_sort cmp_standard ((PyHeap.mk [[5, 3, 1, 4, 2]]).read 0) ∧
    (∀ s, s ≠ 0 →
      (quick_sortH cmp_standard (PyHeap.mk [[5, 3, 1, 4, 2]]) 0).1.read s =
        (PyHeap.mk [[5, 3, 1, 4, 2]]).read s) :=
  claim_C8 cmp_standard pickHead (PyHeap.mk [[5, 3, 1, 4, 2]]) 0 (by decide)

/-- Counterexample to claim C9 (`quick_sorted` returns exactly the output of
`merge_sorted` for every pivot choice): on four pairwise-equivalent elements
the two functions differ — `quick_sorted` (here with the head-element pivot
oracle, a valid model of one possible `random.choice` outcome) preserves the
input order while `merge_sorted` swaps the middle elements. -/
theorem claim_C9_counterexample :
    quick_sorted cmp_fst pickHead [(1, "a"), (1, "b"), (1, "c"), (1, "d")] =
      some [(1, "a"), (1, "b"), (1, "c"), (1, "d")] ∧
    merge_sorted cmp_fst [(1, "a"), (1, "b"), (1, "c"), (1, "d")] =
      some [(1, "a"), (1, "c"), (1, "b"), (1, "d")] ∧
    quick_sorted cmp_fst pickHead [(1, "a"), (1, "b"), (1, "c"), (1, "d")] ≠
      merge_sorted cmp_fst [(1, "a"), (1, "b"), (1, "c"), (1, "d")] := by
  refine ⟨rfl, rfl, ?_⟩
  rw [show quick_sorted cmp_fst pickHead [(1, "a"), (1, "b"), (1, "c"), (1, "d")] =
    some [(1, "a"), (1, "b"), (1, "c"), (1, "d")] from rfl]
  rw [show merge_sorted cmp_fst [(1, "a"), (1, "b"), (1, "c"), (1, "d")] =
    some [(1, "a"), (1, "c"), (1, "b"), (1, "d")] from rfl]
  decide

/-- Amended claim C9: under the contract, the output of `quick_sorted` is
independent of which pivot the random choice selects (any two valid pivot
oracles give identical results), and `quick_sorted` is stable (each
comparator-equivalence class appears in input order); but it does not
coincide with `merge_sorted`, which is not stable. -/
theorem claim_C9_amended {α : Type} (cmp : α → α → Int)
    (pick₁ pick₂ : List α → α) (xs : List α) (hc : CmpContract cmp)
    (hp₁ : ValidPick pick₁) (hp₂ : ValidPick pick₂) :
    quick_sorted cmp pick₁ xs = quick_sorted cmp pick₂ xs ∧
    (∀ l, quick_sorted cmp pick₁ xs = some l → ∀ v,
      l.filter (fun z => cmp z v == 0) = xs.filter (fun z => cmp z v == 0)) :=
  ⟨quick_sorted_pick_irrelevant hc hp₁ hp₂ xs,
    fun l hl v => quick_sortedA_filter hc xs.length xs l hl v⟩

/-- Witness for the amended C9: head-pivot and last-pivot quicksort agree at
a concrete input. -/
theorem claim_C9_amended_witness :
    quick_sorted cmp_standard pickHead ([3, 1, 2] : List Int) =
      quick_sorted cmp_standard pickLast [3, 1, 2] ∧
    (∀ l, quick_sorted cmp_standard pickHead ([3, 1, 2] : List Int) = some l → ∀ v,
      l.filter (fun z => cmp_standard z v == 0) =
        ([3, 1, 2] : List Int).filter (fun z => cmp_standard z v == 0)) :=
  claim_C9_amended cmp_standard pickHead pickLast [3, 1, 2] cmp_standard_contract
    pickHead_valid pickLast_valid

/-- Claim C10: `_merged` (and therefore `merge_sorted`) terminates whenever
the comparator answers in `{-1, 0, 1}`; the precondition is necessary: if
the comparator answers anything else for the pair under the cursors while
both cursors are in range, no loop branch advances either cursor and the
loop diverges (the model returns `none` for that infinite loop). -/
theorem claim_C10 {α : Type} (cmp : α → α → Int) :
    ((∀ a b : α, cmp a b = -1 ∨ cmp a b = 0 ∨ cmp a b = 1) →
      (∀ xs ys : List α, ∃ l, merged cmp xs ys = some l) ∧
      (∀ xs : List α, ∃ l, merge_sorted cmp xs = some l)) ∧
    (∀ (x y : α) (xs ys : List α), cmp x y ≠ -1 → cmp x y ≠ 0 → cmp x y ≠ 1 →
      merged cmp (x :: xs) (y :: ys) = none) :=
  ⟨fun hr => ⟨merged_isSome_of_range hr, merge_sorted_isSome_of_range hr⟩,
    fun x y xs ys h1 h2 h3 => merged_cons_stuck cmp x y xs ys h1 h2 h3⟩

/-- Witness for C10: termination at `cmp_standard`, and divergence of the
merge loop under the comparator that constantly answers `2`. -/
theorem claim_C10_witness :
    (∃ l, merged cmp_standard [1, 3, 5] [2, 4, 6] = some l) ∧
    (∃ l, merge_sorted cmp_standard [5, 3, 1, 4, 2] = some l) ∧
    merged (fun _ _ : Int => 2) [0] [0] = none :=
  ⟨(claim_C10 cmp_standard).1 cmp_standard_contract.range |>.1 [1, 3, 5] [2, 4, 6],
    (claim_C10 cmp_standard).1 cmp_standard_contract.range |>.2 [5, 3, 1, 4, 2],
    (claim_C10 (fun _ _ : Int => 2)).2 0 0 [] [] (by decide) (by decide) (by decide)⟩

end Sorting
